import Mathlib

/-!
Verification of the xk6-kv key-value store core: the in-memory and disk-backed
store implementations, the reference-counted open/close protocol of the disk
backend, the serialization decorator, and the JSON / string serializers.

Modelling conventions:
- Go byte slices are modelled as `List Char` (one `Char` per byte; keys and
  values in this repository are text, so this is an exact model of the byte
  sequences the code manipulates).
- Go `any` values crossing the Store / Serializer boundary are modelled by the
  closed variant `GoValue`: raw byte slices, JSON-representable values
  (a Go `string` is the JSON string variant; `nil`, `bool`, numbers, `[]any`
  and `map[string]any` are the other variants, with numbers restricted to
  integral values — float formatting is out of scope), and a catch-all for
  other Go types carrying their `%T` and `%v` renderings.
- Stateful Go methods become explicit state passing: a method returns the new
  store value together with its Go results (`error` is `Option Err`, a fallible
  value result is `Except Err _`).
- The BoltDB file is modelled as an association list of buckets; a bucket is an
  association list of key/value pairs kept in ascending key order, which is how
  BoltDB physically stores keys and what its cursor iteration yields.
- Execution is sequential (one operation at a time) except where a claim is
  explicitly about the concurrent open protocol, which gets a dedicated
  interleaving model of the atomic steps of `DiskStore.open` / `Close`.
-/

namespace KV

/-- A Go byte slice, one `Char` per byte. -/
abbrev Bytes := List Char

/-- Error kinds surfaced by the store core (Go `error` values, classified). -/
inductive Err where
  /-- "key %s not found" -/
  | notFound (key : String)
  /-- "unsupported value type for %s store: %T" -/
  | unsupportedValueType (which : String)
  /-- "bucket %s not found" (disk store transactions) -/
  | bucketNotFound
  /-- "unable to serialize value" (serializer encode failure) -/
  | serializationFailure
  /-- "unable to deserialize JSON value" (serializer decode failure) -/
  | deserializationFailure
  deriving DecidableEq

/-- A JSON-representable Go value (`nil`, `bool`, `float64` restricted to
integral values, `string`, `[]any`, `map[string]any`). Object fields model a
Go map, whose canonical representation is a key-sorted duplicate-free
association list. -/
inductive Json where
  | null
  | bool (b : Bool)
  | num (n : Int)
  | str (s : String)
  | arr (elems : List Json)
  | obj (fields : List (String × Json))

/-- A dynamically typed Go value (`any`) at the Store / Serializer boundary. -/
inductive GoValue where
  /-- a `[]byte` value -/
  | goBytes (b : Bytes)
  /-- a JSON-representable value; `goJson (.str s)` is a Go `string` -/
  | goJson (j : Json)
  /-- any other Go type, with its `%T` and `%v` renderings -/
  | goOther (typeName : String) (textRepr : String)

/-- A key/value pair produced by `List` (`store.Entry`). -/
structure Entry where
  key : String
  value : GoValue

/-- Go `strings.HasPrefix` (byte prefix match). -/
def goHasPrefix (s pre : String) : Bool := pre.data.isPrefixOf s.data

/-- The `switch value.(type)` shared verbatim by `MemoryStore.Set` and
`DiskStore.Set`: a `[]byte` passes through, a `string` is converted to its
bytes, anything else is unsupported (`none`). -/
def goValueToBytes : GoValue → Option Bytes
  | .goBytes b => some b
  | .goJson (.str s) => some s.data
  | _ => none

/-- Association-list update: replace the binding of `k` if present, else
append. Models assignment into a Go map. -/
def assocSet (m : List (String × Bytes)) (k : String) (v : Bytes) :
    List (String × Bytes) :=
  match m with
  | [] => [(k, v)]
  | (k', v') :: rest =>
    if k' = k then (k, v) :: rest else (k', v') :: assocSet rest k v

/-- Association-list removal of every binding of `k`. Models `delete` on a Go
map. -/
def assocDelete (m : List (String × Bytes)) (k : String) :
    List (String × Bytes) :=
  m.filter (fun kv => kv.1 ≠ k)

/-! ## MemoryStore (src/kv/store/memory.go) -/

/-- `MemoryStore`: a Go map from key to byte slice (the `sync.RWMutex` guards
it at runtime; in this sequential model each operation is atomic). -/
structure MemoryStore where
  container : List (String × Bytes)
  deriving DecidableEq

/-- `NewMemoryStore`. -/
def NewMemoryStore : MemoryStore := ⟨[]⟩

/-- `MemoryStore.Get`. -/
def MemoryStore.Get (s : MemoryStore) (key : String) : Except Err GoValue :=
  match s.container.lookup key with
  | none => .error (.notFound key)
  | some v => .ok (.goBytes v)

/-- `MemoryStore.Set`. -/
def MemoryStore.Set (s : MemoryStore) (key : String) (value : GoValue) :
    MemoryStore × Option Err :=
  match goValueToBytes value with
  | none => (s, some (.unsupportedValueType "memory"))
  | some bts => (⟨assocSet s.container key bts⟩, none)

/-- `MemoryStore.Delete`. -/
def MemoryStore.Delete (s : MemoryStore) (key : String) :
    MemoryStore × Option Err :=
  (⟨assocDelete s.container key⟩, none)

/-- `MemoryStore.Exists`. -/
def MemoryStore.Exists (s : MemoryStore) (key : String) : Bool × Option Err :=
  ((s.container.lookup key).isSome, none)

/-- `MemoryStore.Clear`. -/
def MemoryStore.Clear (_ : MemoryStore) : MemoryStore × Option Err :=
  (⟨[]⟩, none)

/-- `MemoryStore.Size`. -/
def MemoryStore.Size (s : MemoryStore) : Int × Option Err :=
  ((s.container.length : Int), none)

/-- The `for _, k := range keys` loop of `MemoryStore.List`: append entries
until `hasLimit && count >= limit`, looking each key up in the container. -/
def memListLoop (container : List (String × Bytes)) (hasLimit : Bool)
    (limit : Int) : Int → List String → List Entry
  | _, [] => []
  | count, k :: ks =>
    if hasLimit && decide (count ≥ limit) then []
    else ⟨k, .goBytes ((container.lookup k).getD [])⟩ ::
      memListLoop container hasLimit limit (count + 1) ks

/-- `MemoryStore.List`: collect the keys matching the prefix, sort them
(`sort.Strings`), then materialize entries bounded by `limit`. -/
def MemoryStore.List (s : MemoryStore) (pre : String) (limit : Int) :
    List Entry × Option Err :=
  let keys := (s.container.map Prod.fst).filter
    (fun k => pre = "" || goHasPrefix k pre)
  let sorted := keys.insertionSort (· ≤ ·)
  (memListLoop s.container (limit > 0) limit 0 sorted, none)

/-- `MemoryStore.Close` (a no-op). -/
def MemoryStore.Close (s : MemoryStore) : MemoryStore × Option Err :=
  (s, none)

/-! ## DiskStore (src/kv/store/disk.go) -/

/-- `DefaultDiskStorePath`: the default path to the BoltDB database file. -/
def DefaultDiskStorePath : String := ".k6.kv"

/-- `DefaultKvBucket`: the default bucket name for the KV store (declared by
the source; note that `DiskStore.open` actually creates and records the bucket
named `DefaultDiskStorePath`, not this constant). -/
def DefaultKvBucket : String := "k6"

/-- A BoltDB bucket: key/value pairs in ascending key order (BoltDB stores
keys byte-lexicographically, and its cursor iterates them in that order). -/
abbrev Bucket := List (String × Bytes)

/-- BoltDB `bucket.Put`: insert keeping ascending key order, replacing an
existing binding of the same key. -/
def bucketPut (b : Bucket) (k : String) (v : Bytes) : Bucket :=
  match b with
  | [] => [(k, v)]
  | (k', v') :: rest =>
    if k = k' then (k, v) :: rest
    else if k < k' then (k, v) :: (k', v') :: rest
    else (k', v') :: bucketPut rest k v

/-- BoltDB `bucket.Delete`. -/
def bucketDelete (b : Bucket) (k : String) : Bucket :=
  b.filter (fun kv => kv.1 ≠ k)

/-- The contents of the BoltDB file: buckets by name. -/
abbrev BoltFile := List (String × Bucket)

/-- BoltDB `tx.CreateBucketIfNotExists`. -/
def createBucketIfNotExists (f : BoltFile) (name : String) : BoltFile :=
  match f.lookup name with
  | some _ => f
  | none => (name, []) :: f

/-- Replace the contents of bucket `name` in the file. -/
def fileSetBucket (f : BoltFile) (name : String) (b : Bucket) : BoltFile :=
  f.map (fun nb => if nb.1 = name then (name, b) else nb)

/-- `DiskStore`: path, BoltDB handle, recorded bucket name, `opened` flag,
reference count, and mutex. The physical side is modelled by `handleOpen`
(whether the file handle is open) and `file` (the on-disk contents, which
persist across close/re-open). The mutex needs no field in this sequential
model. `bucket` is the `s.bucket` byte-slice field, `none` while still the
`nil` slice it is initialized to. -/
structure DiskStore where
  path : String
  handleOpen : Bool
  file : BoltFile
  bucket : Option String
  opened : Bool
  refCount : Int

/-- `NewDiskStore`, over an arbitrary pre-existing file contents (the file at
`path` may or may not already hold data). -/
def NewDiskStore (pre : BoltFile) : DiskStore :=
  { path := DefaultDiskStorePath
    handleOpen := false
    file := pre
    bucket := none
    opened := false
    refCount := 0 }

/-- `DiskStore.open`: the fast path increments the reference count when the
store is already marked open; otherwise, under the lock, the `opened` flag is
re-checked (unchanged in sequential execution, so that branch is dead here —
see the concurrent model below for its effect under interleaving), then the
file is physically opened, the bucket named `DefaultDiskStorePath` is created
if absent, the bucket name is recorded, the store is marked opened and the
reference count incremented. I/O failures of `bolt.Open` are not modelled
(the open always succeeds). -/
def DiskStore.openDB (s : DiskStore) : DiskStore × Option Err :=
  if s.opened then ({ s with refCount := s.refCount + 1 }, none)
  else if s.opened then (s, none)
  else
    let file' := createBucketIfNotExists s.file DefaultDiskStorePath
    ({ s with
        handleOpen := true
        file := file'
        bucket := some DefaultDiskStorePath
        opened := true
        refCount := s.refCount + 1 }, none)

/-- `tx.Bucket(s.bucket)`: look the recorded bucket name up in the file
(`nil` name yields no bucket). -/
def DiskStore.txBucket (s : DiskStore) : Option Bucket :=
  match s.bucket with
  | none => none
  | some name => s.file.lookup name

/-- `DiskStore.Get`. -/
def DiskStore.Get (s : DiskStore) (key : String) :
    DiskStore × Except Err GoValue :=
  match s.openDB with
  | (s', some e) => (s', .error e)
  | (s', none) =>
    match s'.txBucket with
    | none => (s', .error .bucketNotFound)
    | some bkt =>
      match bkt.lookup key with
      | none => (s', .error (.notFound key))
      | some v => (s', .ok (.goBytes v))

/-- `DiskStore.Set`. -/
def DiskStore.Set (s : DiskStore) (key : String) (value : GoValue) :
    DiskStore × Option Err :=
  match s.openDB with
  | (s', some e) => (s', some e)
  | (s', none) =>
    match goValueToBytes value with
    | none => (s', some (.unsupportedValueType "disk"))
    | some bts =>
      match s'.bucket with
      | none => (s', some .bucketNotFound)
      | some name =>
        match s'.file.lookup name with
        | none => (s', some .bucketNotFound)
        | some bkt =>
          ({ s' with file := fileSetBucket s'.file name (bucketPut bkt key bts) },
            none)

/-- `DiskStore.Delete`. -/
def DiskStore.Delete (s : DiskStore) (key : String) : DiskStore × Option Err :=
  match s.openDB with
  | (s', some e) => (s', some e)
  | (s', none) =>
    match s'.bucket with
    | none => (s', some .bucketNotFound)
    | some name =>
      match s'.file.lookup name with
      | none => (s', some .bucketNotFound)
      | some bkt =>
        ({ s' with file := fileSetBucket s'.file name (bucketDelete bkt key) },
          none)

/-- `DiskStore.Exists`. -/
def DiskStore.Exists (s : DiskStore) (key : String) :
    DiskStore × Bool × Option Err :=
  match s.openDB with
  | (s', some e) => (s', false, some e)
  | (s', none) =>
    match s'.txBucket with
    | none => (s', false, some .bucketNotFound)
    | some bkt => (s', (bkt.lookup key).isSome, none)

/-- `DiskStore.Clear`: iterates the bucket deleting every key, emptying it. -/
def DiskStore.Clear (s : DiskStore) : DiskStore × Option Err :=
  match s.openDB with
  | (s', some e) => (s', some e)
  | (s', none) =>
    match s'.bucket with
    | none => (s', some .bucketNotFound)
    | some name =>
      match s'.file.lookup name with
      | none => (s', some .bucketNotFound)
      | some _ => ({ s' with file := fileSetBucket s'.file name [] }, none)

/-- `DiskStore.Size` (`bucket.Stats().KeyN`). -/
def DiskStore.Size (s : DiskStore) : DiskStore × Int × Option Err :=
  match s.openDB with
  | (s', some e) => (s', 0, some e)
  | (s', none) =>
    match s'.txBucket with
    | none => (s', 0, some .bucketNotFound)
    | some bkt => (s', (bkt.length : Int), none)

/-- The cursor loop of `DiskStore.List`: walk the bucket in stored (ascending)
key order, skip keys not matching a non-empty prefix, stop once `count`
reaches a positive `limit`. -/
def diskListLoop (pre : String) (hasLimit : Bool) (limit : Int) :
    Int → Bucket → List Entry
  | _, [] => []
  | count, (k, v) :: rest =>
    if pre ≠ "" && !goHasPrefix k pre then diskListLoop pre hasLimit limit count rest
    else if hasLimit && decide (count ≥ limit) then []
    else ⟨k, .goBytes v⟩ :: diskListLoop pre hasLimit limit (count + 1) rest

/-- `DiskStore.List`. -/
def DiskStore.List (s : DiskStore) (pre : String) (limit : Int) :
    DiskStore × Except Err (List Entry) :=
  match s.openDB with
  | (s', some e) => (s', .error e)
  | (s', none) =>
    match s'.txBucket with
    | none => (s', .error .bucketNotFound)
    | some bkt => (s', .ok (diskListLoop pre (limit > 0) limit 0 bkt))

/-- `DiskStore.Close`: a no-op on a store not marked open; otherwise decrement
the reference count, and only when it drops to (or below) zero physically
close the handle and clear the `opened` flag. -/
def DiskStore.Close (s : DiskStore) : DiskStore × Option Err :=
  if s.opened = false then (s, none)
  else
    let newCount := s.refCount - 1
    if newCount > 0 then ({ s with refCount := newCount }, none)
    else ({ s with refCount := newCount, handleOpen := false, opened := false },
      none)

/-! ## Sequences of public DiskStore operations -/

/-- A public `DiskStore` operation. -/
inductive DiskOp where
  | get (k : String)
  | set (k : String) (v : GoValue)
  | del (k : String)
  | hasKey (k : String)
  | clear
  | size
  | list (pre : String) (limit : Int)
  | close

/-- The store state after one public operation. -/
def DiskStore.applyOp (s : DiskStore) : DiskOp → DiskStore
  | .get k => (s.Get k).1
  | .set k v => (s.Set k v).1
  | .del k => (s.Delete k).1
  | .hasKey k => (s.Exists k).1
  | .clear => s.Clear.1
  | .size => s.Size.1
  | .list pre limit => (s.List pre limit).1
  | .close => s.Close.1

/-- The store state after a sequence of public operations. -/
def runDiskOps (s : DiskStore) (ops : List DiskOp) : DiskStore :=
  ops.foldl DiskStore.applyOp s

/-! ## The disk lifecycle invariant -/

/-- The strengthened lifecycle invariant of a `DiskStore`: the physical handle
state mirrors the `opened` flag, an opened store has a strictly positive
reference count, and an unopened store has reference count zero. -/
def lifecycleInv (s : DiskStore) : Prop :=
  s.handleOpen = s.opened
    ∧ (s.opened = true → 1 ≤ s.refCount)
    ∧ (s.opened = false → s.refCount = 0)

theorem lifecycleInv_new (pre : BoltFile) : lifecycleInv (NewDiskStore pre) :=
  ⟨rfl, by simp [NewDiskStore], by simp [NewDiskStore]⟩

theorem openDB_of_opened (s : DiskStore) (h : s.opened = true) :
    s.openDB = ({ s with refCount := s.refCount + 1 }, none) := by
  simp [DiskStore.openDB, h]

theorem openDB_of_not_opened (s : DiskStore) (h : s.opened = false) :
    s.openDB =
      ({ s with
          handleOpen := true
          file := createBucketIfNotExists s.file DefaultDiskStorePath
          bucket := some DefaultDiskStorePath
          opened := true
          refCount := s.refCount + 1 }, none) := by
  simp [DiskStore.openDB, h]

theorem openDB_snd (s : DiskStore) : (s.openDB).2 = none := by
  by_cases h : s.opened = true
  · rw [openDB_of_opened s h]
  · rw [openDB_of_not_opened s (by simpa using h)]

theorem openDB_eq (s : DiskStore) : s.openDB = ((s.openDB).1, none) := by
  rcases h : s.openDB with ⟨a, b⟩
  have hb : b = none := by rw [← openDB_snd s, h]
  simp [hb]

theorem close_of_not_opened (s : DiskStore) (h : s.opened = false) :
    s.Close = (s, none) := by
  simp [DiskStore.Close, h]

theorem close_of_opened_pos (s : DiskStore) (h : s.opened = true)
    (hpos : s.refCount - 1 > 0) :
    s.Close = ({ s with refCount := s.refCount - 1 }, none) := by
  simp [DiskStore.Close, h, hpos]

theorem close_of_opened_last (s : DiskStore) (h : s.opened = true)
    (hpos : ¬s.refCount - 1 > 0) :
    s.Close =
      ({ s with
          refCount := s.refCount - 1
          handleOpen := false
          opened := false }, none) := by
  simp [DiskStore.Close, h, hpos]

theorem lifecycleInv_openDB (s : DiskStore) (h : lifecycleInv s) :
    lifecycleInv (s.openDB).1 := by
  obtain ⟨h1, h2, h3⟩ := h
  by_cases hop : s.opened = true
  · rw [openDB_of_opened s hop]
    have hrc := h2 hop
    refine ⟨h1, fun _ => ?_, fun hc => ?_⟩
    · change 1 ≤ s.refCount + 1
      omega
    · exact absurd (show s.opened = false from hc) (by simp [hop])
  · have hop' : s.opened = false := by simpa using hop
    have hrc := h3 hop'
    rw [openDB_of_not_opened s hop']
    refine ⟨rfl, fun _ => ?_, fun hc => ?_⟩
    · change 1 ≤ s.refCount + 1
      omega
    · exact absurd (show true = false from hc) (by decide)

theorem lifecycleInv_close (s : DiskStore) (h : lifecycleInv s) :
    lifecycleInv (s.Close).1 := by
  obtain ⟨h1, h2, h3⟩ := h
  by_cases hop : s.opened = true
  · have hrc := h2 hop
    by_cases hpos : s.refCount - 1 > 0
    · rw [close_of_opened_pos s hop hpos]
      refine ⟨h1, fun _ => ?_, fun hc => ?_⟩
      · change 1 ≤ s.refCount - 1
        omega
      · exact absurd (show s.opened = false from hc) (by simp [hop])
    · rw [close_of_opened_last s hop hpos]
      refine ⟨rfl, fun hc => ?_, fun _ => ?_⟩
      · exact absurd (show false = true from hc) (by decide)
      · change s.refCount - 1 = 0
        omega
  · have hop' : s.opened = false := by simpa using hop
    rw [close_of_not_opened s hop']
    exact ⟨h1, h2, h3⟩

/-- The lifecycle fields of a `DiskStore` (physical handle, opened flag,
reference count). -/
def lifecycleFields (s : DiskStore) : Bool × Bool × Int :=
  (s.handleOpen, s.opened, s.refCount)

theorem lifecycleFields_get (s : DiskStore) (k : String) :
    lifecycleFields (s.Get k).1 = lifecycleFields (s.openDB).1 := by
  unfold DiskStore.Get
  split
  next s' e heq => rw [heq]
  next s' heq =>
    rw [heq]
    repeat' split
    all_goals rfl

theorem lifecycleFields_set (s : DiskStore) (k : String) (v : GoValue) :
    lifecycleFields (s.Set k v).1 = lifecycleFields (s.openDB).1 := by
  unfold DiskStore.Set
  split
  next s' e heq => rw [heq]
  next s' heq =>
    rw [heq]
    repeat' split
    all_goals rfl

theorem lifecycleFields_delete (s : DiskStore) (k : String) :
    lifecycleFields (s.Delete k).1 = lifecycleFields (s.openDB).1 := by
  unfold DiskStore.Delete
  split
  next s' e heq => rw [heq]
  next s' heq =>
    rw [heq]
    repeat' split
    all_goals rfl

theorem lifecycleFields_exists (s : DiskStore) (k : String) :
    lifecycleFields (s.Exists k).1 = lifecycleFields (s.openDB).1 := by
  unfold DiskStore.Exists
  split
  next s' e heq => rw [heq]
  next s' heq =>
    rw [heq]
    repeat' split
    all_goals rfl

theorem lifecycleFields_clear (s : DiskStore) :
    lifecycleFields s.Clear.1 = lifecycleFields (s.openDB).1 := by
  unfold DiskStore.Clear
  split
  next s' e heq => rw [heq]
  next s' heq =>
    rw [heq]
    repeat' split
    all_goals rfl

theorem lifecycleFields_size (s : DiskStore) :
    lifecycleFields s.Size.1 = lifecycleFields (s.openDB).1 := by
  unfold DiskStore.Size
  split
  next s' e heq => rw [heq]
  next s' heq =>
    rw [heq]
    repeat' split
    all_goals rfl

theorem lifecycleFields_list (s : DiskStore) (pre : String) (limit : Int) :
    lifecycleFields (s.List pre limit).1 = lifecycleFields (s.openDB).1 := by
  unfold DiskStore.List
  split
  next s' e heq => rw [heq]
  next s' heq =>
    rw [heq]
    repeat' split
    all_goals rfl

theorem lifecycleInv_of_fields_eq {s t : DiskStore}
    (hf : lifecycleFields s = lifecycleFields t) (h : lifecycleInv t) :
    lifecycleInv s := by
  have h1 : s.handleOpen = t.handleOpen := congrArg Prod.fst hf
  have h2 : s.opened = t.opened := congrArg (fun p => p.2.1) hf
  have h3 : s.refCount = t.refCount := congrArg (fun p => p.2.2) hf
  unfold lifecycleInv
  rw [h1, h2, h3]
  exact h

theorem lifecycleInv_applyOp (s : DiskStore) (op : DiskOp)
    (h : lifecycleInv s) : lifecycleInv (s.applyOp op) := by
  have hOpen := lifecycleInv_openDB s h
  cases op with
  | get k => exact lifecycleInv_of_fields_eq (lifecycleFields_get s k) hOpen
  | set k v => exact lifecycleInv_of_fields_eq (lifecycleFields_set s k v) hOpen
  | del k => exact lifecycleInv_of_fields_eq (lifecycleFields_delete s k) hOpen
  | hasKey k =>
    exact lifecycleInv_of_fields_eq (lifecycleFields_exists s k) hOpen
  | clear => exact lifecycleInv_of_fields_eq (lifecycleFields_clear s) hOpen
  | size => exact lifecycleInv_of_fields_eq (lifecycleFields_size s) hOpen
  | list pre limit =>
    exact lifecycleInv_of_fields_eq (lifecycleFields_list s pre limit) hOpen
  | close => exact lifecycleInv_close s h

theorem lifecycleInv_runDiskOps (s : DiskStore) (ops : List DiskOp)
    (h : lifecycleInv s) : lifecycleInv (runDiskOps s ops) := by
  induction ops generalizing s with
  | nil => exact h
  | cons op rest ih => exact ih _ (lifecycleInv_applyOp s op h)

/-- C1: for every sequence of public operations on a newly created disk store,
at every operation boundary the physical file handle is open exactly when the
reference count is positive, the reference count never goes negative, and
`Close` on the never-opened store is a no-op returning success. -/
theorem diskStore_lifecycle_invariant (pre : BoltFile) (ops : List DiskOp) :
    ((runDiskOps (NewDiskStore pre) ops).handleOpen = true
        ↔ 0 < (runDiskOps (NewDiskStore pre) ops).refCount)
      ∧ 0 ≤ (runDiskOps (NewDiskStore pre) ops).refCount
      ∧ (NewDiskStore pre).Close = (NewDiskStore pre, none) := by
  obtain ⟨h1, h2, h3⟩ :=
    lifecycleInv_runDiskOps (NewDiskStore pre) ops (lifecycleInv_new pre)
  set t := runDiskOps (NewDiskStore pre) ops
  refine ⟨⟨fun hh => ?_, fun hrc => ?_⟩, ?_, rfl⟩
  · have hop : t.opened = true := by rw [← h1]; exact hh
    have := h2 hop
    omega
  · by_cases hop : t.opened = true
    · rw [h1, hop]
    · have := h3 (by simpa using hop)
      omega
  · by_cases hop : t.opened = true
    · have := h2 hop
      omega
    · have := h3 (by simpa using hop)
      omega

/-- The states of the concrete disk lifecycle scenario of C3. -/
def scn1 : DiskStore × Option Err :=
  (NewDiskStore []).Set "key" (.goJson (.str "v1"))

def scn2 : DiskStore × Except Err GoValue := scn1.1.Get "key"

def scn3 : DiskStore × Option Err := scn2.1.Close

def scn4 : DiskStore × Option Err := scn3.1.Close

def scn5 : DiskStore × Except Err GoValue := scn4.1.Get "key"

/-- C3: the concrete disk lifecycle scenario: on a fresh store, `Set` then
`Get` each self-open (reference count 1, then 2); the first `Close` leaves the
count at 1 with the handle still physically open; the second `Close` reaches 0
and physically closes; a further `Get` transparently re-opens (count 1) and
succeeds with the stored value. -/
theorem diskStore_lifecycle_scenario :
    scn1.2 = none ∧ scn1.1.refCount = 1
      ∧ scn2.1.refCount = 2 ∧ scn2.2 = .ok (.goBytes "v1".data)
      ∧ scn3.2 = none ∧ scn3.1.refCount = 1 ∧ scn3.1.handleOpen = true
      ∧ scn4.2 = none ∧ scn4.1.refCount = 0 ∧ scn4.1.handleOpen = false
      ∧ scn5.1.refCount = 1 ∧ scn5.2 = .ok (.goBytes "v1".data) :=
  ⟨rfl, rfl, rfl, rfl, rfl, rfl, rfl, rfl, rfl, rfl, rfl, rfl⟩

/-! ## Concurrent model of `DiskStore.open`

`DiskStore.open` uses double-checked locking: a lock-free fast check of the
`opened` atomic, then — if it read `false` — the mutex is taken and `opened`
is re-checked. The re-check branch returns `nil` (success) WITHOUT touching
the reference count. Sequentially that branch is dead (the flag cannot change
between the two loads), but under concurrency it is reachable. The model below
makes the atomic steps of `open` explicit so a concrete interleaving of two
calls can be executed. -/

/-- Program counter of one thread executing `DiskStore.open`. -/
inductive OpenPC where
  /-- about to execute the lock-free `if s.opened.Load()` -/
  | fastCheck
  /-- fast check read `true`: about to `s.refCount.Add(1)` and return `nil` -/
  | fastIncr
  /-- fast check read `false`: about to `s.lock.Lock()` -/
  | acquireLock
  /-- holding the lock: about to re-check `s.opened.Load()` -/
  | recheck
  /-- re-check read `false`: perform the physical open, set `opened`,
  increment the count, release the lock (all still under the lock) -/
  | doOpen
  /-- returned `nil` after having incremented the reference count -/
  | doneIncr
  /-- returned `nil` from the re-check branch, without incrementing -/
  | doneNoIncr
  deriving DecidableEq

/-- The shared store fields relevant to `open`, plus the program counters of
two concurrent `open` calls. -/
structure ConcOpenState where
  opened : Bool
  refCount : Int
  lockHeld : Option (Fin 2)
  pcs : Fin 2 → OpenPC

/-- One atomic step of thread `t` in `DiskStore.open`; a thread blocked on the
mutex, or already returned, leaves the state unchanged. -/
def concStep (st : ConcOpenState) (t : Fin 2) : ConcOpenState :=
  match st.pcs t with
  | .fastCheck =>
    if st.opened then { st with pcs := Function.update st.pcs t .fastIncr }
    else { st with pcs := Function.update st.pcs t .acquireLock }
  | .fastIncr =>
    { st with
        refCount := st.refCount + 1
        pcs := Function.update st.pcs t .doneIncr }
  | .acquireLock =>
    match st.lockHeld with
    | none =>
      { st with
          lockHeld := some t
          pcs := Function.update st.pcs t .recheck }
    | some _ => st
  | .recheck =>
    if st.opened then
      { st with
          lockHeld := none
          pcs := Function.update st.pcs t .doneNoIncr }
    else { st with pcs := Function.update st.pcs t .doOpen }
  | .doOpen =>
    { st with
        opened := true
        refCount := st.refCount + 1
        lockHeld := none
        pcs := Function.update st.pcs t .doneIncr }
  | .doneIncr => st
  | .doneNoIncr => st

/-- Two `open` calls racing on a store that is not yet open. -/
def concInit : ConcOpenState :=
  { opened := false
    refCount := 0
    lockHeld := none
    pcs := fun _ => .fastCheck }

/-- Run a schedule (a list of thread ids, one per atomic step). -/
def runSched (st : ConcOpenState) (sched : List (Fin 2)) : ConcOpenState :=
  sched.foldl concStep st

/-- C2 (refuting the claim as stated — this is the code bug): under the
interleaving where thread 1's lock-free check reads `opened = false`, thread 0
then completes the whole open (reference count 1), and thread 1 subsequently
acquires the lock and re-checks, BOTH `open` calls return success, yet the
reference count is 1: the second successful call did not increment it, so a
matching `Close` by each caller closes the file while the other still uses
it. -/
theorem open_racy_success_without_increment :
    (runSched concInit [1, 0, 0, 0, 0, 1, 1]).pcs 0 = .doneIncr
      ∧ (runSched concInit [1, 0, 0, 0, 0, 1, 1]).pcs 1 = .doneNoIncr
      ∧ (runSched concInit [1, 0, 0, 0, 0, 1, 1]).refCount = 1 :=
  ⟨rfl, rfl, rfl⟩

/-- In the sequential model every `open` call returns success and increments
the reference count by exactly one — the re-check branch is unreachable
without interleaving. -/
theorem openDB_increments (s : DiskStore) :
    (s.openDB).2 = none ∧ (s.openDB).1.refCount = s.refCount + 1 := by
  by_cases hop : s.opened = true
  · rw [openDB_of_opened s hop]
    exact ⟨rfl, rfl⟩
  · rw [openDB_of_not_opened s (by simpa using hop)]
    exact ⟨rfl, rfl⟩

/-! ## Lookup lemmas for the association-list containers -/

theorem lookup_assocSet_self (m : List (String × Bytes)) (k : String)
    (v : Bytes) : (assocSet m k v).lookup k = some v := by
  induction m with
  | nil => simp [assocSet]
  | cons kv rest ih =>
    obtain ⟨k', v'⟩ := kv
    by_cases h : k' = k
    · simp [assocSet, h]
    · simp [assocSet, h, List.lookup_cons, beq_false_of_ne (Ne.symm h), ih]

theorem lookup_assocSet_ne (m : List (String × Bytes)) (k k' : String)
    (v : Bytes) (h : k' ≠ k) :
    (assocSet m k v).lookup k' = m.lookup k' := by
  induction m with
  | nil => simp [assocSet, List.lookup_cons, beq_false_of_ne h, h]
  | cons kv rest ih =>
    obtain ⟨k₀, v₀⟩ := kv
    by_cases h0 : k₀ = k
    · subst h0
      simp [assocSet, List.lookup_cons, beq_false_of_ne h, h]
    · simp [assocSet, h0, List.lookup_cons, ih]

theorem lookup_assocDelete_self (m : List (String × Bytes)) (k : String) :
    (assocDelete m k).lookup k = none := by
  induction m with
  | nil => simp [assocDelete]
  | cons kv rest ih =>
    obtain ⟨k₀, v₀⟩ := kv
    by_cases h0 : k₀ = k
    · simpa [assocDelete, h0] using ih
    · simpa [assocDelete, h0, List.lookup_cons, beq_false_of_ne (Ne.symm h0)]
        using ih

theorem lookup_assocDelete_ne (m : List (String × Bytes)) (k k' : String)
    (h : k' ≠ k) : (assocDelete m k).lookup k' = m.lookup k' := by
  induction m with
  | nil => simp [assocDelete]
  | cons kv rest ih =>
    obtain ⟨k₀, v₀⟩ := kv
    by_cases h0 : k₀ = k
    · subst h0
      simpa [assocDelete, List.lookup_cons, beq_false_of_ne h, h] using ih
    · by_cases h1 : k' = k₀
      · simp [assocDelete, h0, List.lookup_cons, h1]
      · simpa [assocDelete, h0, List.lookup_cons, beq_false_of_ne h1, h1]
          using ih

theorem lookup_bucketPut_self (b : Bucket) (k : String) (v : Bytes) :
    (bucketPut b k v).lookup k = some v := by
  induction b with
  | nil => simp [bucketPut]
  | cons kv rest ih =>
    obtain ⟨k₀, v₀⟩ := kv
    by_cases h0 : k = k₀
    · simp [bucketPut, h0]
    · by_cases h1 : k < k₀
      · simp [bucketPut, h0, h1]
      · simp [bucketPut, h0, h1, List.lookup_cons, beq_false_of_ne h0, ih]

theorem lookup_bucketPut_ne (b : Bucket) (k k' : String) (v : Bytes)
    (h : k' ≠ k) : (bucketPut b k v).lookup k' = b.lookup k' := by
  induction b with
  | nil => simp [bucketPut, List.lookup_cons, beq_false_of_ne h, h]
  | cons kv rest ih =>
    obtain ⟨k₀, v₀⟩ := kv
    by_cases h0 : k = k₀
    · subst h0
      simp [bucketPut, List.lookup_cons, beq_false_of_ne h, h]
    · by_cases h1 : k < k₀
      · simp [bucketPut, h0, h1, List.lookup_cons, beq_false_of_ne h, h]
      · simp [bucketPut, h0, h1, List.lookup_cons, ih]

theorem lookup_bucketDelete_self (b : Bucket) (k : String) :
    (bucketDelete b k).lookup k = none := by
  induction b with
  | nil => simp [bucketDelete]
  | cons kv rest ih =>
    obtain ⟨k₀, v₀⟩ := kv
    by_cases h0 : k₀ = k
    · simpa [bucketDelete, h0] using ih
    · simpa [bucketDelete, h0, List.lookup_cons, beq_false_of_ne (Ne.symm h0)]
        using ih

theorem lookup_bucketDelete_ne (b : Bucket) (k k' : String) (h : k' ≠ k) :
    (bucketDelete b k).lookup k' = b.lookup k' := by
  induction b with
  | nil => simp [bucketDelete]
  | cons kv rest ih =>
    obtain ⟨k₀, v₀⟩ := kv
    by_cases h0 : k₀ = k
    · subst h0
      simpa [bucketDelete, List.lookup_cons, beq_false_of_ne h, h] using ih
    · by_cases h1 : k' = k₀
      · simp [bucketDelete, h0, List.lookup_cons, h1]
      · simpa [bucketDelete, h0, List.lookup_cons, beq_false_of_ne h1, h1]
          using ih

theorem lookup_fileSetBucket (f : BoltFile) (n m : String) (b : Bucket) :
    (fileSetBucket f n b).lookup m =
      if m = n then (f.lookup n).map (fun _ => b) else f.lookup m := by
  induction f with
  | nil => simp [fileSetBucket]
  | cons kb rest ih =>
    obtain ⟨k₀, b₀⟩ := kb
    by_cases h0 : k₀ = n
    · subst h0
      by_cases h1 : m = k₀
      · subst h1
        simp [fileSetBucket, List.lookup_cons]
      · simpa [fileSetBucket, List.lookup_cons, beq_false_of_ne h1, h1]
          using ih
    · by_cases h1 : m = k₀
      · have h2 : ¬m = n := fun e => h0 (by rw [← h1]; exact e)
        simp [fileSetBucket, h0, List.lookup_cons, h1, h2]
      · simpa [fileSetBucket, h0, List.lookup_cons, beq_false_of_ne h1, h1,
          beq_false_of_ne (Ne.symm h0)] using ih

theorem lookup_createBucket_getD (f : BoltFile) (n : String) :
    ((createBucketIfNotExists f n).lookup n).getD []
      = (f.lookup n).getD [] := by
  unfold createBucketIfNotExists
  rcases h : f.lookup n with _ | b
  · simp [List.lookup_cons, h]
  · simp [h]

theorem lookup_createBucket_isSome (f : BoltFile) (n : String) :
    ((createBucketIfNotExists f n).lookup n).isSome = true := by
  unfold createBucketIfNotExists
  rcases h : f.lookup n with _ | b
  · simp [List.lookup_cons]
  · simp [h]

/-! ## Normalized forms of the DiskStore operations -/

theorem get_eq (s : DiskStore) (k : String) :
    s.Get k = ((s.openDB).1,
      match (s.openDB).1.txBucket with
      | none => .error .bucketNotFound
      | some bkt =>
        match bkt.lookup k with
        | none => .error (.notFound k)
        | some v => .ok (.goBytes v)) := by
  unfold DiskStore.Get
  split
  next s' e heq =>
    have h := openDB_snd s
    rw [heq] at h
    cases h
  next s' heq =>
    rw [heq]
    rcases htb : s'.txBucket with _ | bkt
    · simp [htb]
    · rcases hlk : bkt.lookup k with _ | v <;> simp [htb, hlk]

theorem set_eq (s : DiskStore) (k : String) (v : GoValue) :
    s.Set k v = (match goValueToBytes v with
      | none => ((s.openDB).1, some (.unsupportedValueType "disk"))
      | some bts =>
        match (s.openDB).1.bucket with
        | none => ((s.openDB).1, some .bucketNotFound)
        | some name =>
          match (s.openDB).1.file.lookup name with
          | none => ((s.openDB).1, some .bucketNotFound)
          | some bkt =>
            ({ (s.openDB).1 with
                file := fileSetBucket (s.openDB).1.file name (bucketPut bkt k bts) },
              none)) := by
  unfold DiskStore.Set
  split
  next s' e heq =>
    have h := openDB_snd s
    rw [heq] at h
    cases h
  next s' heq => rw [heq]

theorem delete_eq (s : DiskStore) (k : String) :
    s.Delete k = (match (s.openDB).1.bucket with
      | none => ((s.openDB).1, some .bucketNotFound)
      | some name =>
        match (s.openDB).1.file.lookup name with
        | none => ((s.openDB).1, some .bucketNotFound)
        | some bkt =>
          ({ (s.openDB).1 with
              file := fileSetBucket (s.openDB).1.file name (bucketDelete bkt k) },
            none)) := by
  unfold DiskStore.Delete
  split
  next s' e heq =>
    have h := openDB_snd s
    rw [heq] at h
    cases h
  next s' heq => rw [heq]

theorem exists_eq (s : DiskStore) (k : String) :
    s.Exists k = ((s.openDB).1,
      match (s.openDB).1.txBucket with
      | none => (false, some .bucketNotFound)
      | some bkt => ((bkt.lookup k).isSome, none)) := by
  unfold DiskStore.Exists
  split
  next s' e heq =>
    have h := openDB_snd s
    rw [heq] at h
    cases h
  next s' heq =>
    rw [heq]
    rcases s'.txBucket with _ | bkt <;> rfl

theorem clear_eq (s : DiskStore) :
    s.Clear = (match (s.openDB).1.bucket with
      | none => ((s.openDB).1, some .bucketNotFound)
      | some name =>
        match (s.openDB).1.file.lookup name with
        | none => ((s.openDB).1, some .bucketNotFound)
        | some _ =>
          ({ (s.openDB).1 with file := fileSetBucket (s.openDB).1.file name [] },
            none)) := by
  unfold DiskStore.Clear
  split
  next s' e heq =>
    have h := openDB_snd s
    rw [heq] at h
    cases h
  next s' heq => rw [heq]

theorem size_eq (s : DiskStore) :
    s.Size = ((s.openDB).1,
      match (s.openDB).1.txBucket with
      | none => (0, some .bucketNotFound)
      | some bkt => ((bkt.length : Int), none)) := by
  unfold DiskStore.Size
  split
  next s' e heq =>
    have h := openDB_snd s
    rw [heq] at h
    cases h
  next s' heq =>
    rw [heq]
    rcases s'.txBucket with _ | bkt <;> rfl

theorem list_eq (s : DiskStore) (pre : String) (limit : Int) :
    s.List pre limit = ((s.openDB).1,
      match (s.openDB).1.txBucket with
      | none => .error .bucketNotFound
      | some bkt => .ok (diskListLoop pre (limit > 0) limit 0 bkt)) := by
  unfold DiskStore.List
  split
  next s' e heq =>
    have h := openDB_snd s
    rw [heq] at h
    cases h
  next s' heq =>
    rw [heq]
    rcases s'.txBucket with _ | bkt <;> rfl

theorem close_snd (s : DiskStore) : (s.Close).2 = none := by
  by_cases hop : s.opened = true
  · by_cases hpos : s.refCount - 1 > 0
    · rw [close_of_opened_pos s hop hpos]
    · rw [close_of_opened_last s hop hpos]
  · rw [close_of_not_opened s (by simpa using hop)]

/-! ## The bucket invariant and reachable disk states -/

/-- Once a `DiskStore` is marked open, its recorded bucket name is the one
created during `open` (`DefaultDiskStorePath`), and that bucket exists in the
file. -/
def bucketInv (s : DiskStore) : Prop :=
  s.opened = true →
    s.bucket = some DefaultDiskStorePath
      ∧ (s.file.lookup DefaultDiskStorePath).isSome = true

theorem bucketInv_new (pre : BoltFile) : bucketInv (NewDiskStore pre) := by
  intro h
  simp [NewDiskStore] at h

theorem openDB_ready (s : DiskStore) (h : bucketInv s) :
    (s.openDB).1.opened = true
      ∧ (s.openDB).1.bucket = some DefaultDiskStorePath
      ∧ ((s.openDB).1.file.lookup DefaultDiskStorePath).isSome = true := by
  by_cases hop : s.opened = true
  · obtain ⟨hb, hf⟩ := h hop
    rw [openDB_of_opened s hop]
    exact ⟨hop, hb, hf⟩
  · rw [openDB_of_not_opened s (by simpa using hop)]
    exact ⟨rfl, rfl, lookup_createBucket_isSome s.file DefaultDiskStorePath⟩

theorem txBucket_openDB (s : DiskStore) (h : bucketInv s) :
    ∃ bkt, (s.openDB).1.file.lookup DefaultDiskStorePath = some bkt
      ∧ (s.openDB).1.txBucket = some bkt := by
  obtain ⟨_, hb, hf⟩ := openDB_ready s h
  obtain ⟨bkt, hbkt⟩ := Option.isSome_iff_exists.mp hf
  exact ⟨bkt, hbkt, by simp [DiskStore.txBucket, hb, hbkt]⟩

theorem bucketInv_applyOp (s : DiskStore) (op : DiskOp) (h : bucketInv s) :
    bucketInv (s.applyOp op) := by
  obtain ⟨hopd, hb, hf⟩ := openDB_ready s h
  obtain ⟨bkt, hfl, htb⟩ := txBucket_openDB s h
  have hready : bucketInv (s.openDB).1 := fun _ => ⟨hb, hf⟩
  cases op with
  | get k =>
    show bucketInv (s.Get k).1
    rw [get_eq s k]
    exact hready
  | set k v =>
    show bucketInv (s.Set k v).1
    rw [set_eq s k v]
    rcases hv : goValueToBytes v with _ | bts
    · simp only [hv]
      exact hready
    · simp only [hv, hb, hfl]
      intro _
      refine ⟨rfl, ?_⟩
      rw [lookup_fileSetBucket]
      simp [hfl]
  | del k =>
    show bucketInv (s.Delete k).1
    rw [delete_eq s k]
    simp only [hb, hfl]
    intro _
    refine ⟨rfl, ?_⟩
    rw [lookup_fileSetBucket]
    simp [hfl]
  | hasKey k =>
    show bucketInv (s.Exists k).1
    rw [exists_eq s k]
    exact hready
  | clear =>
    show bucketInv s.Clear.1
    rw [clear_eq s]
    simp only [hb, hfl]
    intro _
    refine ⟨rfl, ?_⟩
    rw [lookup_fileSetBucket]
    simp [hfl]
  | size =>
    show bucketInv s.Size.1
    rw [size_eq s]
    exact hready
  | list pre limit =>
    show bucketInv (s.List pre limit).1
    rw [list_eq s pre limit]
    exact hready
  | close =>
    show bucketInv s.Close.1
    by_cases hop : s.opened = true
    · by_cases hpos : s.refCount - 1 > 0
      · rw [close_of_opened_pos s hop hpos]
        intro _
        exact h hop
      · rw [close_of_opened_last s hop hpos]
        intro hc
        simp at hc
    · rw [close_of_not_opened s (by simpa using hop)]
      exact h

theorem bucketInv_runDiskOps_aux (ops : List DiskOp) :
    ∀ s, bucketInv s → bucketInv (runDiskOps s ops) := by
  induction ops with
  | nil => exact fun s h => h
  | cons op rest ih => exact fun s h => ih _ (bucketInv_applyOp s op h)

theorem bucketInv_runDiskOps (pre : BoltFile) (ops : List DiskOp) :
    bucketInv (runDiskOps (NewDiskStore pre) ops) :=
  bucketInv_runDiskOps_aux ops _ (bucketInv_new pre)

/-- The Go error returned by one public operation. -/
def diskOpErr (s : DiskStore) : DiskOp → Option Err
  | .get k =>
    match (s.Get k).2 with
    | .error e => some e
    | .ok _ => none
  | .set k v => (s.Set k v).2
  | .del k => (s.Delete k).2
  | .hasKey k => (s.Exists k).2.2
  | .clear => s.Clear.2
  | .size => s.Size.2.2
  | .list pre limit =>
    match (s.List pre limit).2 with
    | .error e => some e
    | .ok _ => none
  | .close => s.Close.2

/-- C8: on every store reachable from a fresh `DiskStore`, the bucket name the
public operations look up (`s.bucket` after the self-open) is exactly the name
of the bucket created during `open` (`DefaultDiskStorePath`), that bucket
exists in the file, and consequently no public operation ever returns the
"bucket not found" error. -/
theorem bucket_branch_unreachable (pre : BoltFile) (ops : List DiskOp)
    (op : DiskOp) :
    ((runDiskOps (NewDiskStore pre) ops).openDB).1.bucket
        = some DefaultDiskStorePath
      ∧ (((runDiskOps (NewDiskStore pre) ops).openDB).1.file.lookup
          DefaultDiskStorePath).isSome = true
      ∧ diskOpErr (runDiskOps (NewDiskStore pre) ops) op
          ≠ some .bucketNotFound := by
  have hinv := bucketInv_runDiskOps pre ops
  set s := runDiskOps (NewDiskStore pre) ops with hs
  obtain ⟨hopd, hb, hf⟩ := openDB_ready s hinv
  obtain ⟨bkt, hfl, htb⟩ := txBucket_openDB s hinv
  refine ⟨hb, hf, ?_⟩
  cases op with
  | get k =>
    show (match (s.Get k).2 with
      | .error e => some e
      | .ok _ => none) ≠ some Err.bucketNotFound
    rw [get_eq s k]
    simp only [htb]
    rcases hlk : bkt.lookup k with _ | v <;> simp [hlk]
  | set k v =>
    show (s.Set k v).2 ≠ some Err.bucketNotFound
    rw [set_eq s k v]
    rcases hv : goValueToBytes v with _ | bts
    · simp [hv]
    · simp [hv, hb, hfl]
  | del k =>
    show (s.Delete k).2 ≠ some Err.bucketNotFound
    rw [delete_eq s k]
    simp [hb, hfl]
  | hasKey k =>
    show (s.Exists k).2.2 ≠ some Err.bucketNotFound
    rw [exists_eq s k]
    simp only [htb]
    simp
  | clear =>
    show s.Clear.2 ≠ some Err.bucketNotFound
    rw [clear_eq s]
    simp [hb, hfl]
  | size =>
    show s.Size.2.2 ≠ some Err.bucketNotFound
    rw [size_eq s]
    simp only [htb]
    simp
  | list pre' limit =>
    show (match (s.List pre' limit).2 with
      | .error e => some e
      | .ok _ => none) ≠ some Err.bucketNotFound
    rw [list_eq s pre' limit]
    simp only [htb]
    simp
  | close =>
    show s.Close.2 ≠ some Err.bucketNotFound
    rw [close_snd s]
    simp

/-! ## Value acceptance of the backend Set (C6) -/

/-- The claim's words: the value is a raw byte sequence or text. -/
def isBytesOrText : GoValue → Bool
  | .goBytes _ => true
  | .goJson (.str _) => true
  | _ => false

/-- The byte content of a bytes-or-text value. -/
def rawBytes : GoValue → Bytes
  | .goBytes b => b
  | .goJson (.str str) => str.data
  | _ => []

theorem goValueToBytes_eq (v : GoValue) :
    goValueToBytes v = if isBytesOrText v then some (rawBytes v) else none := by
  cases v with
  | goBytes b => rfl
  | goJson j => cases j <;> rfl
  | goOther t r => rfl

/-- C6: backend `Set` (on both `MemoryStore` and `DiskStore`) upserts when the
value is a raw byte sequence or text — afterwards the key is bound to the
value's bytes and other keys are untouched — and returns the hard
"unsupported value type" error for a value of any other type (disk stores
quantified over every reachable state). -/
theorem set_accepts_bytes_or_text (m : MemoryStore) (k k' : String)
    (v : GoValue) (pre : BoltFile) (ops : List DiskOp) :
    (isBytesOrText v = true →
        (m.Set k v).2 = none
          ∧ (m.Set k v).1.container.lookup k = some (rawBytes v)
          ∧ (k' ≠ k →
              (m.Set k v).1.container.lookup k' = m.container.lookup k'))
      ∧ (isBytesOrText v = false →
          m.Set k v = (m, some (.unsupportedValueType "memory")))
      ∧ (isBytesOrText v = true →
          ((runDiskOps (NewDiskStore pre) ops).Set k v).2 = none
            ∧ (((runDiskOps (NewDiskStore pre) ops).Set k v).1.Get k).2
                = .ok (.goBytes (rawBytes v)))
      ∧ (isBytesOrText v = false →
          ((runDiskOps (NewDiskStore pre) ops).Set k v).2
            = some (.unsupportedValueType "disk")) := by
  have hinv := bucketInv_runDiskOps pre ops
  set s := runDiskOps (NewDiskStore pre) ops with hs
  obtain ⟨hopd, hb, hf⟩ := openDB_ready s hinv
  obtain ⟨bkt, hfl, htb⟩ := txBucket_openDB s hinv
  refine ⟨fun hbt => ?_, fun hbt => ?_, fun hbt => ?_, fun hbt => ?_⟩
  · have hv : goValueToBytes v = some (rawBytes v) := by
      rw [goValueToBytes_eq, hbt, if_pos rfl]
    unfold MemoryStore.Set
    rw [hv]
    exact ⟨rfl, lookup_assocSet_self m.container k (rawBytes v),
      fun hne => lookup_assocSet_ne m.container k k' (rawBytes v) hne⟩
  · have hv : goValueToBytes v = none := by
      rw [goValueToBytes_eq, hbt]
      rfl
    unfold MemoryStore.Set
    rw [hv]
  · have hv : goValueToBytes v = some (rawBytes v) := by
      rw [goValueToBytes_eq, hbt, if_pos rfl]
    have hset : s.Set k v =
        ({ (s.openDB).1 with
            file := fileSetBucket (s.openDB).1.file DefaultDiskStorePath
              (bucketPut bkt k (rawBytes v)) }, none) := by
      rw [set_eq s k v]
      simp only [hv, hb, hfl]
    refine ⟨by rw [hset], ?_⟩
    rw [hset]
    set t : DiskStore :=
      { (s.openDB).1 with
          file := fileSetBucket (s.openDB).1.file DefaultDiskStorePath
            (bucketPut bkt k (rawBytes v)) } with ht
    have htop : t.opened = true := hopd
    have hbt' : t.bucket = some DefaultDiskStorePath := hb
    have htfile : t.file = fileSetBucket (s.openDB).1.file DefaultDiskStorePath
        (bucketPut bkt k (rawBytes v)) := rfl
    have htbt : (t.openDB).1.txBucket = some (bucketPut bkt k (rawBytes v)) := by
      rw [openDB_of_opened t htop]
      show t.txBucket = _
      unfold DiskStore.txBucket
      rw [hbt']
      show t.file.lookup DefaultDiskStorePath = _
      rw [htfile, lookup_fileSetBucket]
      simp [hfl]
    rw [get_eq t k]
    simp only [htbt]
    rw [lookup_bucketPut_self]
  · have hv : goValueToBytes v = none := by
      rw [goValueToBytes_eq, hbt]
      rfl
    rw [set_eq s k v]
    simp only [hv]

/-- Witness for C6: a concrete text value is stored and a concrete null value
is rejected by both backends. -/
theorem set_accepts_bytes_or_text_witness :
    (NewMemoryStore.Set "a" (.goJson (.str "x"))).2 = none
      ∧ NewMemoryStore.Set "a" (.goJson .null)
          = (NewMemoryStore, some (.unsupportedValueType "memory"))
      ∧ ((NewDiskStore []).Set "a" (.goJson .null)).2
          = some (.unsupportedValueType "disk") :=
  ⟨((set_accepts_bytes_or_text NewMemoryStore "a" "b" (.goJson (.str "x"))
      [] []).1 (by decide)).1,
    (set_accepts_bytes_or_text NewMemoryStore "a" "b" (.goJson .null)
      [] []).2.1 (by decide),
    (set_accepts_bytes_or_text NewMemoryStore "a" "b" (.goJson .null)
      [] []).2.2.2 (by decide)⟩

/-! ## Presence after Set/Delete histories (C7) -/

/-- A key-space mutation: a backend `Set` of raw bytes, or a `Delete`. -/
inductive MutOp where
  | mset (k : String) (v : Bytes)
  | mdel (k : String)

/-- The claim's words: the value left for `k` by the most recent Set/Delete
of `k` in the (chronological) history, if any. -/
def presentVal (ops : List MutOp) (k : String) : Option Bytes :=
  ops.foldl (fun acc op =>
    match op with
    | .mset k' v => if k' = k then some v else acc
    | .mdel k' => if k' = k then none else acc) none

/-- Run a mutation history against the memory store. -/
def runMemMut (s : MemoryStore) (ops : List MutOp) : MemoryStore :=
  ops.foldl (fun s op =>
    match op with
    | .mset k v => (s.Set k (.goBytes v)).1
    | .mdel k => (s.Delete k).1) s

/-- Run a mutation history against the disk store. -/
def runDiskMut (s : DiskStore) (ops : List MutOp) : DiskStore :=
  ops.foldl (fun s op =>
    match op with
    | .mset k v => (s.Set k (.goBytes v)).1
    | .mdel k => (s.Delete k).1) s

theorem runMemMut_lookup (ops : List MutOp) :
    ∀ (s : MemoryStore) (k : String),
      (runMemMut s ops).container.lookup k
        = ops.foldl (fun acc op =>
            match op with
            | .mset k' v => if k' = k then some v else acc
            | .mdel k' => if k' = k then none else acc)
          (s.container.lookup k) := by
  induction ops with
  | nil => exact fun s k => rfl
  | cons op rest ih =>
    intro s k
    cases op with
    | mset k' v =>
      have hstep : ((s.Set k' (.goBytes v)).1).container.lookup k
          = if k' = k then some v else s.container.lookup k := by
        show (assocSet s.container k' v).lookup k = _
        by_cases h : k' = k
        · subst h
          rw [lookup_assocSet_self, if_pos rfl]
        · rw [lookup_assocSet_ne s.container k' k v (fun e => h e.symm),
            if_neg h]
      show (runMemMut (s.Set k' (.goBytes v)).1 rest).container.lookup k = _
      rw [ih, hstep, List.foldl_cons]
    | mdel k' =>
      have hstep : ((s.Delete k').1).container.lookup k
          = if k' = k then none else s.container.lookup k := by
        show (assocDelete s.container k').lookup k = _
        by_cases h : k' = k
        · subst h
          rw [lookup_assocDelete_self, if_pos rfl]
        · rw [lookup_assocDelete_ne s.container k' k (fun e => h e.symm),
            if_neg h]
      show (runMemMut (s.Delete k').1 rest).container.lookup k = _
      rw [ih, hstep, List.foldl_cons]

/-- The value bound to `k` in the disk store's default bucket on file. -/
def diskVal (s : DiskStore) (k : String) : Option Bytes :=
  ((s.file.lookup DefaultDiskStorePath).getD []).lookup k

theorem diskVal_openDB (s : DiskStore) (k : String) :
    diskVal (s.openDB).1 k = diskVal s k := by
  by_cases hop : s.opened = true
  · rw [openDB_of_opened s hop]
    rfl
  · rw [openDB_of_not_opened s (by simpa using hop)]
    show (((createBucketIfNotExists s.file DefaultDiskStorePath).lookup
        DefaultDiskStorePath).getD []).lookup k = _
    rw [lookup_createBucket_getD]
    rfl

theorem diskVal_eq_bucket (s : DiskStore) (bkt : Bucket)
    (hfl : (s.openDB).1.file.lookup DefaultDiskStorePath = some bkt)
    (k : String) : diskVal s k = bkt.lookup k := by
  rw [← diskVal_openDB s k]
  show (((s.openDB).1.file.lookup DefaultDiskStorePath).getD []).lookup k = _
  rw [hfl]
  rfl

theorem diskVal_set (s : DiskStore) (hinv : bucketInv s) (k' k : String)
    (v : Bytes) :
    diskVal ((s.Set k' (.goBytes v)).1) k
      = if k' = k then some v else diskVal s k := by
  obtain ⟨hopd, hb, hf⟩ := openDB_ready s hinv
  obtain ⟨bkt, hfl, htb⟩ := txBucket_openDB s hinv
  have hbktval : diskVal s k = bkt.lookup k := diskVal_eq_bucket s bkt hfl k
  have hset : (s.Set k' (.goBytes v)).1
      = { (s.openDB).1 with
          file := fileSetBucket (s.openDB).1.file DefaultDiskStorePath
            (bucketPut bkt k' v) } := by
    rw [set_eq]
    simp only [goValueToBytes, hb, hfl]
  rw [hset]
  show (((fileSetBucket (s.openDB).1.file DefaultDiskStorePath
      (bucketPut bkt k' v)).lookup DefaultDiskStorePath).getD []).lookup k = _
  rw [lookup_fileSetBucket, if_pos rfl, hfl]
  show (bucketPut bkt k' v).lookup k = _
  by_cases h : k' = k
  · subst h
    rw [lookup_bucketPut_self, if_pos rfl]
  · rw [lookup_bucketPut_ne bkt k' k v (fun e => h e.symm), if_neg h, hbktval]

theorem diskVal_delete (s : DiskStore) (hinv : bucketInv s) (k' k : String) :
    diskVal ((s.Delete k').1) k
      = if k' = k then none else diskVal s k := by
  obtain ⟨hopd, hb, hf⟩ := openDB_ready s hinv
  obtain ⟨bkt, hfl, htb⟩ := txBucket_openDB s hinv
  have hbktval : diskVal s k = bkt.lookup k := diskVal_eq_bucket s bkt hfl k
  have hdel : (s.Delete k').1
      = { (s.openDB).1 with
          file := fileSetBucket (s.openDB).1.file DefaultDiskStorePath
            (bucketDelete bkt k') } := by
    rw [delete_eq]
    simp only [hb, hfl]
  rw [hdel]
  show (((fileSetBucket (s.openDB).1.file DefaultDiskStorePath
      (bucketDelete bkt k')).lookup DefaultDiskStorePath).getD []).lookup k = _
  rw [lookup_fileSetBucket, if_pos rfl, hfl]
  show (bucketDelete bkt k').lookup k = _
  by_cases h : k' = k
  · subst h
    rw [lookup_bucketDelete_self, if_pos rfl]
  · rw [lookup_bucketDelete_ne bkt k' k (fun e => h e.symm), if_neg h, hbktval]

theorem bucketInv_runDiskMut (ops : List MutOp) :
    ∀ s, bucketInv s → bucketInv (runDiskMut s ops) := by
  induction ops with
  | nil => exact fun s h => h
  | cons op rest ih =>
    intro s h
    cases op with
    | mset k v =>
      exact ih _ (bucketInv_applyOp s (.set k (.goBytes v)) h)
    | mdel k =>
      exact ih _ (bucketInv_applyOp s (.del k) h)

theorem diskVal_runDiskMut (ops : List MutOp) :
    ∀ s, bucketInv s → ∀ k,
      diskVal (runDiskMut s ops) k
        = ops.foldl (fun acc op =>
            match op with
            | .mset k' v => if k' = k then some v else acc
            | .mdel k' => if k' = k then none else acc) (diskVal s k) := by
  induction ops with
  | nil => exact fun s h k => rfl
  | cons op rest ih =>
    intro s h k
    cases op with
    | mset k' v =>
      have hinv' : bucketInv (s.Set k' (.goBytes v)).1 :=
        bucketInv_applyOp s (.set k' (.goBytes v)) h
      show diskVal (runDiskMut (s.Set k' (.goBytes v)).1 rest) k = _
      rw [ih _ hinv' k, diskVal_set s h k' k v, List.foldl_cons]
    | mdel k' =>
      have hinv' : bucketInv (s.Delete k').1 :=
        bucketInv_applyOp s (.del k') h
      show diskVal (runDiskMut (s.Delete k').1 rest) k = _
      rw [ih _ hinv' k, diskVal_delete s h k' k, List.foldl_cons]

theorem disk_get_val (s : DiskStore) (hinv : bucketInv s) (k : String) :
    (s.Get k).2 = (match diskVal s k with
      | none => .error (.notFound k)
      | some v => .ok (.goBytes v)) := by
  obtain ⟨bkt, hfl, htb⟩ := txBucket_openDB s hinv
  rw [get_eq s k, diskVal_eq_bucket s bkt hfl k]
  simp only [htb]

theorem disk_exists_val (s : DiskStore) (hinv : bucketInv s) (k : String) :
    (s.Exists k).2 = ((diskVal s k).isSome, none) := by
  obtain ⟨bkt, hfl, htb⟩ := txBucket_openDB s hinv
  rw [exists_eq s k, diskVal_eq_bucket s bkt hfl k]
  simp only [htb]

/-- C7: for every Set/Delete history run against a fresh store (memory and
disk alike), `Get k` fails with the not-found error exactly on the keys the
history leaves absent (never set, or last deleted), and `Exists k` returns
precisely the presence the history establishes. -/
theorem get_notFound_exists_presence (ops : List MutOp) (k : String) :
    (presentVal ops k = none →
        (runMemMut NewMemoryStore ops).Get k = .error (.notFound k)
          ∧ ((runDiskMut (NewDiskStore []) ops).Get k).2
              = .error (.notFound k))
      ∧ ((runMemMut NewMemoryStore ops).Exists k).1
          = (presentVal ops k).isSome
      ∧ ((runDiskMut (NewDiskStore []) ops).Exists k).2.1
          = (presentVal ops k).isSome := by
  have hmem : (runMemMut NewMemoryStore ops).container.lookup k
      = presentVal ops k := runMemMut_lookup ops NewMemoryStore k
  have hdiskinv : bucketInv (runDiskMut (NewDiskStore []) ops) :=
    bucketInv_runDiskMut ops _ (bucketInv_new [])
  have hdisk : diskVal (runDiskMut (NewDiskStore []) ops) k
      = presentVal ops k :=
    diskVal_runDiskMut ops _ (bucketInv_new []) k
  refine ⟨fun habs => ⟨?_, ?_⟩, ?_, ?_⟩
  · unfold MemoryStore.Get
    rw [hmem, habs]
  · rw [disk_get_val _ hdiskinv k, hdisk, habs]
  · show ((runMemMut NewMemoryStore ops).container.lookup k).isSome = _
    rw [hmem]
  · rw [disk_exists_val _ hdiskinv k, hdisk]

/-- Witness for C7: after setting then deleting "a", both backends report it
absent; after a lone set of "b", both report it present. -/
theorem get_notFound_exists_presence_witness :
    ((runMemMut NewMemoryStore [.mset "a" "x".data, .mdel "a"]).Get "a"
        = .error (.notFound "a"))
      ∧ ((runDiskMut (NewDiskStore []) [.mset "a" "x".data, .mdel "a"]).Get
          "a").2 = .error (.notFound "a")
      ∧ ((runMemMut NewMemoryStore [.mset "b" "y".data]).Exists "b").1 = true :=
  ⟨((get_notFound_exists_presence [.mset "a" "x".data, .mdel "a"] "a").1
      (by decide)).1,
    ((get_notFound_exists_presence [.mset "a" "x".data, .mdel "a"] "a").1
      (by decide)).2,
    by
      rw [(get_notFound_exists_presence [.mset "b" "y".data] "b").2.1]
      decide⟩

/-! ## List semantics (C4) -/

theorem goHasPrefix_empty (k : String) : goHasPrefix k "" = true := by
  simp [goHasPrefix]

/-- The claim's words for `List`: exactly the entries whose keys start with
the prefix (all of them when the prefix is empty), in non-decreasing key
order, truncated to at most `limit` entries when `limit > 0` and unbounded
otherwise. -/
def specList (entries : List (String × Bytes)) (pre : String) (limit : Int) :
    List Entry :=
  let matching := entries.filter (fun kv => goHasPrefix kv.1 pre)
  let sorted := matching.insertionSort (fun a b => a.1 ≤ b.1)
  let mapped := sorted.map (fun kv => (⟨kv.1, .goBytes kv.2⟩ : Entry))
  if 0 < limit then mapped.take limit.toNat else mapped

theorem memListLoop_nolimit (container : List (String × Bytes)) (limit : Int) :
    ∀ (keys : List String) (count : Int),
      memListLoop container false limit count keys
        = keys.map
            (fun k => (⟨k, .goBytes ((container.lookup k).getD [])⟩ : Entry)) := by
  intro keys
  induction keys with
  | nil => intro count; rfl
  | cons k ks ih =>
    intro count
    simp [memListLoop, ih (count + 1)]

theorem memListLoop_limit (container : List (String × Bytes)) (limit : Int) :
    ∀ (keys : List String) (count : Int),
      memListLoop container true limit count keys
        = (keys.take (limit - count).toNat).map
            (fun k => (⟨k, .goBytes ((container.lookup k).getD [])⟩ : Entry)) := by
  intro keys
  induction keys with
  | nil => intro count; simp [memListLoop]
  | cons k ks ih =>
    intro count
    by_cases h : count ≥ limit
    · have h0 : (limit - count).toNat = 0 := by omega
      simp [memListLoop, h, h0]
    · have h1 : (limit - count).toNat = (limit - (count + 1)).toNat + 1 := by
        omega
      simp [memListLoop, h, h1, ih (count + 1)]

theorem map_fst_filter_comm (l : List (String × Bytes)) (p : String → Bool) :
    (l.map Prod.fst).filter p = (l.filter (fun kv => p kv.1)).map Prod.fst := by
  induction l with
  | nil => rfl
  | cons kv rest ih =>
    by_cases h : p kv.1
    · simp [List.filter_cons, h, ih]
    · simp [List.filter_cons, h, ih]

theorem map_fst_orderedInsert (kv : String × Bytes)
    (l : List (String × Bytes)) :
    (l.orderedInsert (fun a b => a.1 ≤ b.1) kv).map Prod.fst
      = (l.map Prod.fst).orderedInsert (· ≤ ·) kv.1 := by
  induction l with
  | nil => rfl
  | cons kv' rest ih =>
    simp only [List.orderedInsert, List.map_cons]
    by_cases h : kv.1 ≤ kv'.1
    · rw [if_pos h, if_pos h]
      simp only [List.map_cons]
    · rw [if_neg h, if_neg h]
      simp only [List.map_cons, ih]

theorem map_fst_insertionSort (l : List (String × Bytes)) :
    (l.insertionSort (fun a b => a.1 ≤ b.1)).map Prod.fst
      = (l.map Prod.fst).insertionSort (· ≤ ·) := by
  induction l with
  | nil => rfl
  | cons kv rest ih =>
    simp only [List.insertionSort, List.map_cons]
    rw [map_fst_orderedInsert, ih]

theorem lookup_eq_of_mem (m : List (String × Bytes))
    (h : (m.map Prod.fst).Nodup) (kv : String × Bytes) (hm : kv ∈ m) :
    m.lookup kv.1 = some kv.2 := by
  induction m with
  | nil => cases hm
  | cons kv0 rest ih =>
    obtain ⟨k0, v0⟩ := kv0
    simp only [List.map_cons] at h
    obtain ⟨hnotin, hnd⟩ := List.nodup_cons.mp h
    rcases List.mem_cons.mp hm with rfl | hm'
    · simp [List.lookup_cons]
    · have hne : kv.1 ≠ k0 := by
        intro e
        exact hnotin (e ▸ List.mem_map_of_mem Prod.fst hm')
      simp [List.lookup_cons, beq_false_of_ne hne, ih hnd hm']

theorem listFilterPred_eq (pre k : String) :
    (decide (pre = "") || goHasPrefix k pre) = goHasPrefix k pre := by
  by_cases h : pre = ""
  · subst h
    simp [goHasPrefix_empty]
  · simp [h]

theorem memList_entry_values (m : MemoryStore)
    (hm : (m.container.map Prod.fst).Nodup)
    (kvl : List (String × Bytes)) (hsub : ∀ kv ∈ kvl, kv ∈ m.container) :
    (kvl.map Prod.fst).map
        (fun k => (⟨k, .goBytes ((m.container.lookup k).getD [])⟩ : Entry))
      = kvl.map (fun kv => (⟨kv.1, .goBytes kv.2⟩ : Entry)) := by
  rw [List.map_map]
  refine List.map_congr_left (fun kv hkv => ?_)
  have hlk := lookup_eq_of_mem m.container hm kv (hsub kv hkv)
  simp [Function.comp, hlk]

theorem memList_eq_specList (m : MemoryStore)
    (hm : (m.container.map Prod.fst).Nodup) (pre : String) (limit : Int) :
    m.List pre limit = (specList m.container pre limit, none) := by
  have hkeys : ((m.container.map Prod.fst).filter
        (fun k => decide (pre = "") || goHasPrefix k pre)).insertionSort (· ≤ ·)
      = ((m.container.filter
          (fun kv => goHasPrefix kv.1 pre)).insertionSort
            (fun a b => a.1 ≤ b.1)).map Prod.fst := by
    rw [List.filter_congr (fun k _ => listFilterPred_eq pre k),
      map_fst_filter_comm, map_fst_insertionSort]
  have hsub : ∀ kv ∈ (m.container.filter
      (fun kv => goHasPrefix kv.1 pre)).insertionSort (fun a b => a.1 ≤ b.1),
      kv ∈ m.container := by
    intro kv hkv
    exact List.filter_subset' _
      ((List.perm_insertionSort _ _).mem_iff.mp hkv)
  show (memListLoop m.container (decide (limit > 0)) limit 0
      (((m.container.map Prod.fst).filter
        (fun k => decide (pre = "") || goHasPrefix k pre)).insertionSort
          (· ≤ ·)), none)
    = (specList m.container pre limit, none)
  rw [hkeys]
  unfold specList
  by_cases hl : 0 < limit
  · rw [if_pos hl, show decide (limit > 0) = true by simpa using hl,
      memListLoop_limit]
    have : (limit - 0).toNat = limit.toNat := by omega
    rw [this, ← List.map_take, memList_entry_values m hm _
      (fun kv hkv => hsub kv (List.take_subset _ _ hkv))]
    rw [List.map_take]
  · rw [if_neg hl, show decide (limit > 0) = false by simpa using hl,
      memListLoop_nolimit]
    rw [memList_entry_values m hm _ hsub]

theorem diskListLoop_nolimit (pre : String) (limit : Int) :
    ∀ (bkt : Bucket) (count : Int),
      diskListLoop pre false limit count bkt
        = (bkt.filter (fun kv => decide (pre = "") || goHasPrefix kv.1 pre)).map
            (fun kv => (⟨kv.1, .goBytes kv.2⟩ : Entry)) := by
  intro bkt
  induction bkt with
  | nil => intro count; rfl
  | cons kv rest ih =>
    obtain ⟨k, v⟩ := kv
    intro count
    by_cases h : pre = ""
    · subst h
      simp [diskListLoop, List.filter_cons, goHasPrefix_empty, ih (count + 1)]
    · by_cases hp : goHasPrefix k pre
      · simp [diskListLoop, List.filter_cons, h, hp, ih (count + 1)]
      · simp [diskListLoop, List.filter_cons, h, hp, ih count]

theorem diskListLoop_limit (pre : String) (limit : Int) :
    ∀ (bkt : Bucket) (count : Int),
      diskListLoop pre true limit count bkt
        = ((bkt.filter
            (fun kv => decide (pre = "") || goHasPrefix kv.1 pre)).take
              (limit - count).toNat).map
            (fun kv => (⟨kv.1, .goBytes kv.2⟩ : Entry)) := by
  intro bkt
  induction bkt with
  | nil => intro count; simp [diskListLoop]
  | cons kv rest ih =>
    obtain ⟨k, v⟩ := kv
    intro count
    have hkeep : ∀ hkp : (decide (pre = "") || goHasPrefix k pre) = true,
        diskListLoop pre true limit count ((k, v) :: rest)
          = if count ≥ limit then []
            else (⟨k, .goBytes v⟩ : Entry)
              :: diskListLoop pre true limit (count + 1) rest := by
      intro hkp
      by_cases h : pre = ""
      · subst h
        by_cases hc : count ≥ limit <;> simp [diskListLoop, hc]
      · have hp : goHasPrefix k pre = true := by simpa [h] using hkp
        by_cases hc : count ≥ limit <;> simp [diskListLoop, h, hp, hc]
    by_cases hkp : (decide (pre = "") || goHasPrefix k pre) = true
    · rw [hkeep hkp]
      by_cases hc : count ≥ limit
      · have h0 : (limit - count).toNat = 0 := by omega
        simp [hc, List.filter_cons, hkp, h0]
      · have h1 : (limit - count).toNat = (limit - (count + 1)).toNat + 1 := by
          omega
        simp [hc, List.filter_cons, hkp, h1, ih (count + 1)]
    · have h : ¬pre = "" := by
        intro e
        subst e
        simp at hkp
      have hp : goHasPrefix k pre = false := by
        rcases hgp : goHasPrefix k pre
        · rfl
        · exact absurd (by simp [hgp]) hkp
      simp [diskListLoop, h, hp, List.filter_cons, hkp, ih count]

theorem diskList_eq_specList (d : DiskStore) (bkt : Bucket)
    (htb : (d.openDB).1.txBucket = some bkt)
    (hsort : bkt.Sorted (fun a b : String × Bytes => a.1 ≤ b.1))
    (pre : String) (limit : Int) :
    (d.List pre limit).2 = .ok (specList bkt pre limit) := by
  rw [list_eq d pre limit]
  simp only [htb]
  have hfiltereq : bkt.filter (fun kv => decide (pre = "") || goHasPrefix kv.1 pre)
      = bkt.filter (fun kv => goHasPrefix kv.1 pre) :=
    List.filter_congr (fun kv _ => listFilterPred_eq pre kv.1)
  have hsorted : (bkt.filter (fun kv => goHasPrefix kv.1 pre)).insertionSort
      (fun a b => a.1 ≤ b.1) = bkt.filter (fun kv => goHasPrefix kv.1 pre) :=
    (hsort.filter _).insertionSort_eq
  unfold specList
  by_cases hl : 0 < limit
  · rw [show decide (limit > 0) = true by simpa using hl, diskListLoop_limit]
    have : (limit - 0).toNat = limit.toNat := by omega
    rw [this, if_pos hl, hsorted, hfiltereq, List.map_take]
  · rw [show decide (limit > 0) = false by simpa using hl, diskListLoop_nolimit]
    rw [if_neg hl, hsorted, hfiltereq]

/-- C4: `List(prefix, limit)` on both backends returns exactly the entries
whose keys start with the prefix (all live entries when it is empty), in
non-decreasing lexicographic key order, truncated to at most `limit` entries
when `limit > 0` and unbounded when `limit ≤ 0` — both sides equal the
specification function `specList` built from the claim's words. The memory
store is quantified over any container with distinct keys; the disk store
over any store whose (post-open) bucket is `bkt`, sorted as BoltDB keeps it. -/
theorem list_prefix_order_limit (m : MemoryStore)
    (hm : (m.container.map Prod.fst).Nodup)
    (d : DiskStore) (bkt : Bucket)
    (htb : (d.openDB).1.txBucket = some bkt)
    (hsort : bkt.Sorted (fun a b : String × Bytes => a.1 ≤ b.1))
    (pre : String) (limit : Int) :
    m.List pre limit = (specList m.container pre limit, none)
      ∧ (d.List pre limit).2 = .ok (specList bkt pre limit) :=
  ⟨memList_eq_specList m hm pre limit,
    diskList_eq_specList d bkt htb hsort pre limit⟩

/-- Witness for C4: a concrete two-entry memory store listed with an empty
prefix and no limit, and a concrete disk bucket listed with a filtering
prefix and a limit. -/
theorem list_prefix_order_limit_witness :
    (MemoryStore.mk [("b", "2".data), ("a", "1".data)]).List "" 0
        = (specList [("b", "2".data), ("a", "1".data)] "" 0, none)
      ∧ ((NewDiskStore [(DefaultDiskStorePath, [("a", "1".data)])]).List
          "a" 1).2
          = .ok (specList [("a", "1".data)] "a" 1) :=
  ⟨(list_prefix_order_limit (MemoryStore.mk [("b", "2".data), ("a", "1".data)])
      (by decide)
      (NewDiskStore [(DefaultDiskStorePath, [("a", "1".data)])])
      [("a", "1".data)] (by decide) (by decide) "" 0).1,
    (list_prefix_order_limit (MemoryStore.mk [("b", "2".data), ("a", "1".data)])
      (by decide)
      (NewDiskStore [(DefaultDiskStorePath, [("a", "1".data)])])
      [("a", "1".data)] (by decide) (by decide) "a" 1).2⟩

/-! ## Serializers (JSON and raw-string)

`JSONSerializer` wraps `json.Marshal` / `json.Unmarshal` of the Go standard
library. The model implements a concrete JSON encoding over the closed value
domain `Json` (numbers integral, objects in the canonical key-sorted
map-representation) together with a real parser, so the round trip is proved,
not assumed. Byte-level cosmetic differences to Go's encoder (HTML escaping,
`\uXXXX` escapes for control characters, float formatting) are outside the
model; no claim depends on the exact bytes, only on the round trip and on the
empty/malformed behavior of `Deserialize`. -/

/-- The character `\x7b` (opening curly brace). -/
def lbraceChar : Char := Char.ofNat 123

/-- The character `\x7d` (closing curly brace). -/
def rbraceChar : Char := Char.ofNat 125

/-- The digit character for `d < 10`. -/
def digitChar (d : Nat) : Char := Char.ofNat (48 + d)

/-- The numeric value of a digit character. -/
def charVal (c : Char) : Nat := c.toNat - 48

/-- Decimal encoding of a natural number (most significant digit first). -/
def natEncode (n : Nat) : List Char :=
  if n = 0 then ['0'] else ((Nat.digits 10 n).map digitChar).reverse

/-- Decimal encoding of an integer. -/
def intEncode (n : Int) : List Char :=
  if n < 0 then '-' :: natEncode n.natAbs else natEncode n.toNat

/-- The value of a most-significant-first digit string. -/
def digitsToNat (l : List Char) : Nat :=
  l.foldl (fun acc c => 10 * acc + charVal c) 0

/-- JSON string escaping (quote and backslash). -/
def escapeChars : List Char → List Char
  | [] => []
  | c :: rest =>
    if c = '"' ∨ c = '\\' then '\\' :: c :: escapeChars rest
    else c :: escapeChars rest

mutual

/-- The JSON encoding of a value (no insignificant whitespace, keys in the
stored — canonical, sorted — order, mirroring `json.Marshal`'s sorted map
keys). -/
def jsonEncode : Json → List Char
  | .null => ['n', 'u', 'l', 'l']
  | .bool b => if b then ['t', 'r', 'u', 'e'] else ['f', 'a', 'l', 's', 'e']
  | .num n => intEncode n
  | .str s => '"' :: (escapeChars s.data ++ ['"'])
  | .arr xs => '[' :: (encodeElems xs ++ [']'])
  | .obj fs => lbraceChar :: (encodeFields fs ++ [rbraceChar])

/-- Comma-separated encoding of array elements. -/
def encodeElems : List Json → List Char
  | [] => []
  | [x] => jsonEncode x
  | x :: xs => jsonEncode x ++ ',' :: encodeElems xs

/-- Comma-separated encoding of object fields. -/
def encodeFields : List (String × Json) → List Char
  | [] => []
  | [(k, v)] => '"' :: (escapeChars k.data ++ '"' :: ':' :: jsonEncode v)
  | (k, v) :: fs =>
    '"' :: (escapeChars k.data ++ '"' :: ':' :: jsonEncode v)
      ++ ',' :: encodeFields fs

end

mutual

/-- The structural weight of a JSON value, bounding the parser fuel. -/
def jsonWeight : Json → Nat
  | .arr xs => listWeight xs + 1
  | .obj fs => fieldsWeight fs + 1
  | _ => 1

def listWeight : List Json → Nat
  | [] => 0
  | x :: xs => jsonWeight x + listWeight xs + 1

def fieldsWeight : List (String × Json) → Nat
  | [] => 0
  | (_, v) :: fs => jsonWeight v + fieldsWeight fs + 1

end

mutual

/-- Canonical (Go-map representable) JSON values: object key lists strictly
sorted — what `json.Unmarshal` into `any` can actually produce. -/
def canonicalJson : Json → Bool
  | .null => true
  | .bool _ => true
  | .num _ => true
  | .str _ => true
  | .arr xs => canonicalList xs
  | .obj fs => canonicalFields fs

def canonicalList : List Json → Bool
  | [] => true
  | x :: xs => canonicalJson x && canonicalList xs

def canonicalFields : List (String × Json) → Bool
  | [] => true
  | [(_, v)] => canonicalJson v
  | (k1, v) :: (k2, v2) :: fs =>
    decide (k1 < k2) && canonicalJson v && canonicalFields ((k2, v2) :: fs)

end

/-- Expect a fixed character sequence, returning the remainder. -/
def expectChars : List Char → List Char → Option (List Char)
  | [], input => some input
  | _ :: _, [] => none
  | c :: cs, d :: input => if c = d then expectChars cs input else none

/-- Parse a JSON string body (after the opening quote) up to the closing
quote, undoing the escaping. -/
def parseStringBody : List Char → Option (List Char × List Char)
  | [] => none
  | c :: rest =>
    if c = '"' then some ([], rest)
    else if c = '\\' then
      match rest with
      | [] => none
      | e :: rest' =>
        if e = '"' ∨ e = '\\' then
          match parseStringBody rest' with
          | none => none
          | some (s, rem) => some (e :: s, rem)
        else none
    else
      match parseStringBody rest with
      | none => none
      | some (s, rem) => some (c :: s, rem)

mutual

/-- A fuelled recursive-descent JSON parser (value). -/
def parseVal : Nat → List Char → Option (Json × List Char)
  | 0, _ => none
  | fuel + 1, input =>
    match input with
    | [] => none
    | c :: rest =>
      if c = 'n' then
        match expectChars ['u', 'l', 'l'] rest with
        | none => none
        | some rem => some (.null, rem)
      else if c = 't' then
        match expectChars ['r', 'u', 'e'] rest with
        | none => none
        | some rem => some (.bool true, rem)
      else if c = 'f' then
        match expectChars ['a', 'l', 's', 'e'] rest with
        | none => none
        | some rem => some (.bool false, rem)
      else if c = '"' then
        match parseStringBody rest with
        | none => none
        | some (sChars, rem) => some (.str ⟨sChars⟩, rem)
      else if c = '-' then
        match List.span Char.isDigit rest with
        | ([], _) => none
        | (ds, rem) => some (.num (-(digitsToNat ds : Int)), rem)
      else if c.isDigit then
        match List.span Char.isDigit (c :: rest) with
        | (ds, rem) => some (.num ((digitsToNat ds : Int)), rem)
      else if c = '[' then
        if rest.head? = some ']' then some (.arr [], rest.tail)
        else
          match parseElems fuel rest with
          | none => none
          | some (xs, rem) => some (.arr xs, rem)
      else if c = lbraceChar then
        if rest.head? = some rbraceChar then some (.obj [], rest.tail)
        else
          match parseFields fuel rest with
          | none => none
          | some (fs, rem) => some (.obj fs, rem)
      else none

/-- Parse one or more comma-separated array elements up to `]`. -/
def parseElems : Nat → List Char → Option (List Json × List Char)
  | 0, _ => none
  | fuel + 1, input =>
    match parseVal fuel input with
    | none => none
    | some (v, rem) =>
      match rem with
      | ',' :: rem' =>
        match parseElems fuel rem' with
        | none => none
        | some (vs, rem'') => some (v :: vs, rem'')
      | ']' :: rem' => some ([v], rem')
      | _ => none

/-- Parse one or more comma-separated object fields up to the closing
brace. -/
def parseFields : Nat → List Char → Option (List (String × Json) × List Char)
  | 0, _ => none
  | fuel + 1, input =>
    match input with
    | [] => none
    | c :: rest =>
      if c = '"' then
        match parseStringBody rest with
        | none => none
        | some (kChars, rem) =>
          match rem with
          | ':' :: rem' =>
            match parseVal fuel rem' with
            | none => none
            | some (v, rem'') =>
              match rem'' with
              | ',' :: rem3 =>
                match parseFields fuel rem3 with
                | none => none
                | some (fs, rem4) => some ((⟨kChars⟩, v) :: fs, rem4)
              | c2 :: rem3 =>
                if c2 = rbraceChar then some ([(⟨kChars⟩, v)], rem3) else none
              | [] => none
          | _ => none
      else none

end

/-- `json.Unmarshal` modelled: parse exactly one value consuming the whole
input (Go rejects trailing data). -/
def jsonUnmarshal (data : Bytes) : Option Json :=
  match parseVal (data.length + 1) data with
  | some (v, []) => some v
  | _ => none

/-- The base64 alphabet (for `json.Marshal` of `[]byte`). -/
def base64Alphabet : List Char :=
  "ABCDEFGHIJKLMNOPQRSTUVWXYZabcdefghijklmnopqrstuvwxyz0123456789+/".data

/-- Standard base64 of a byte sequence (`json.Marshal` encodes `[]byte` so). -/
def base64Chars : List Char → List Char
  | [] => []
  | [a] =>
    let x := a.toNat
    [base64Alphabet.getD (x / 4) ' ', base64Alphabet.getD (x % 4 * 16) ' ',
      '=', '=']
  | [a, b] =>
    let x := a.toNat
    let y := b.toNat
    [base64Alphabet.getD (x / 4) ' ',
      base64Alphabet.getD (x % 4 * 16 + y / 16) ' ',
      base64Alphabet.getD (y % 16 * 4) ' ', '=']
  | a :: b :: c :: rest =>
    let x := a.toNat
    let y := b.toNat
    let z := c.toNat
    base64Alphabet.getD (x / 4) ' '
      :: base64Alphabet.getD (x % 4 * 16 + y / 16) ' '
      :: base64Alphabet.getD (y % 16 * 4 + z / 64) ' '
      :: base64Alphabet.getD (z % 64) ' '
      :: base64Chars rest

/-- Join with a separating space (for the `%v` renderings below). -/
def joinSpace : List (List Char) → List Char
  | [] => []
  | [x] => x
  | x :: xs => x ++ ' ' :: joinSpace xs

mutual

/-- `fmt.Sprintf("%v", _)` of a decoded JSON value (`map[k:v]`, `[e1 e2]`,
`<nil>`, plain text for strings, decimal for numbers). -/
def jsonVRepr : Json → List Char
  | .null => ['<', 'n', 'i', 'l', '>']
  | .bool b => if b then ['t', 'r', 'u', 'e'] else ['f', 'a', 'l', 's', 'e']
  | .num n => intEncode n
  | .str s => s.data
  | .arr xs => '[' :: (jsonVReprList xs ++ [']'])
  | .obj fs => 'm' :: 'a' :: 'p' :: '[' :: (jsonVReprFields fs ++ [']'])

def jsonVReprList : List Json → List Char
  | [] => []
  | [x] => jsonVRepr x
  | x :: xs => jsonVRepr x ++ ' ' :: jsonVReprList xs

def jsonVReprFields : List (String × Json) → List Char
  | [] => []
  | [(k, v)] => k.data ++ ':' :: jsonVRepr v
  | (k, v) :: fs => k.data ++ ':' :: jsonVRepr v ++ ' ' :: jsonVReprFields fs

end

/-- `fmt.Sprintf("%v", value)` over the dynamic value domain (`[]byte`
renders as the decimal byte list, e.g. `[104 105]`). -/
def sprintfV : GoValue → List Char
  | .goBytes b => '[' :: (joinSpace (b.map (fun c => natEncode c.toNat)) ++ [']'])
  | .goJson j => jsonVRepr j
  | .goOther _ r => r.data

/-- `JSONSerializer.Serialize` (`json.Marshal`): JSON-representable values
via the encoding above, `[]byte` as a base64 JSON string, unmarshalable Go
types (`goOther`: channels, functions, cycles…) fail. -/
def jsonSerialize : GoValue → Except Err Bytes
  | .goJson j => .ok (jsonEncode j)
  | .goBytes b => .ok ('"' :: (base64Chars b ++ ['"']))
  | .goOther _ _ => .error .serializationFailure

/-- `JSONSerializer.Deserialize`: a zero-length input yields the Go `nil`
interface value (modelled as JSON null) with no error; otherwise unmarshal,
failing on malformed input. -/
def jsonDeserialize (data : Bytes) : Except Err GoValue :=
  if data.length = 0 then .ok (.goJson .null)
  else
    match jsonUnmarshal data with
    | some j => .ok (.goJson j)
    | none => .error .deserializationFailure

/-- `StringSerializer.Serialize`: strings pass through as their bytes, any
other value renders via `fmt.Sprintf("%v", ·)`; never fails. -/
def stringSerialize : GoValue → Except Err Bytes
  | .goJson (.str s) => .ok s.data
  | v => .ok (sprintfV v)

/-- `StringSerializer.Deserialize`: always succeeds, returning the text. -/
def stringDeserialize (data : Bytes) : Except Err GoValue :=
  .ok (.goJson (.str ⟨data⟩))

/-! ## SerializedStore (src/kv/store/serialized_store.go) -/

/-- The serializer selected at runtime ("json" or "string"). -/
inductive SerializerKind where
  | json
  | string

/-- Dispatch `Serialize` on the active serializer. -/
def serialize : SerializerKind → GoValue → Except Err Bytes
  | .json, v => jsonSerialize v
  | .string, v => stringSerialize v

/-- Dispatch `Deserialize` on the active serializer. -/
def deserialize : SerializerKind → Bytes → Except Err GoValue
  | .json, d => jsonDeserialize d
  | .string, d => stringDeserialize d

/-- One of the two shipped backends. -/
inductive Backend where
  | mem (m : MemoryStore)
  | disk (d : DiskStore)

/-- Backend `Get` dispatch. -/
def Backend.Get : Backend → String → Backend × Except Err GoValue
  | .mem m, k => (.mem m, m.Get k)
  | .disk d, k =>
    match d.Get k with
    | (d', r) => (.disk d', r)

/-- Backend `Set` dispatch. -/
def Backend.Set : Backend → String → GoValue → Backend × Option Err
  | .mem m, k, v =>
    match m.Set k v with
    | (m', e) => (.mem m', e)
  | .disk d, k, v =>
    match d.Set k v with
    | (d', e) => (.disk d', e)

/-- `SerializedStore`: a backend plus the active serializer. -/
structure SerializedStore where
  store : Backend
  serializer : SerializerKind

/-- `SerializedStore.Set`: serialize, then delegate; a serialization failure
returns before the backend is touched. -/
def SerializedStore.Set (s : SerializedStore) (k : String) (v : GoValue) :
    SerializedStore × Option Err :=
  match serialize s.serializer v with
  | .error _ => (s, some .serializationFailure)
  | .ok bts =>
    match s.store.Set k (.goBytes bts) with
    | (b', e) => ({ s with store := b' }, e)

/-- `SerializedStore.Get`: fetch raw, then decode strings and byte slices via
the active serializer; an already-structured value passes through. -/
def SerializedStore.Get (s : SerializedStore) (k : String) :
    SerializedStore × Except Err GoValue :=
  match s.store.Get k with
  | (b', .error e) => ({ s with store := b' }, .error e)
  | (b', .ok raw) =>
    match raw with
    | .goJson (.str str) =>
      ({ s with store := b' }, deserialize s.serializer str.data)
    | .goBytes bts => ({ s with store := b' }, deserialize s.serializer bts)
    | other => ({ s with store := b' }, .ok other)

/-! ## Round trip of the JSON encoding: auxiliary lemmas -/

/-- The continuation after a number must not begin with a digit (the decimal
parse is greedy); every continuation the grammar produces satisfies this. -/
def numberSafe : List Char → Prop
  | [] => True
  | c :: _ => c.isDigit = false

theorem digitChar_isDigit (d : Nat) (h : d < 10) :
    (digitChar d).isDigit = true := by
  interval_cases d <;> decide

theorem charVal_digitChar (d : Nat) (h : d < 10) :
    charVal (digitChar d) = d := by
  interval_cases d <;> decide

theorem natEncode_digits (n : Nat) : ∀ c ∈ natEncode n, c.isDigit = true := by
  intro c hc
  unfold natEncode at hc
  by_cases h : n = 0
  · rw [if_pos h] at hc
    simp at hc
    subst hc
    decide
  · rw [if_neg h] at hc
    rw [List.mem_reverse] at hc
    obtain ⟨d, hd, rfl⟩ := List.mem_map.mp hc
    exact digitChar_isDigit d (Nat.digits_lt_base (by norm_num) hd)

theorem natEncode_ne_nil (n : Nat) : natEncode n ≠ [] := by
  unfold natEncode
  by_cases h : n = 0
  · simp [h]
  · rw [if_neg h]
    simp [Nat.digits_ne_nil_iff_ne_zero.mpr h]

theorem foldl_digits_eq (l : List Char) :
    ∀ acc : Nat, l.foldl (fun a c => 10 * a + charVal c) acc
      = acc * 10 ^ l.length
          + Nat.ofDigits 10 ((l.map (fun c => (charVal c : Nat))).reverse) := by
  induction l with
  | nil => intro acc; simp [Nat.ofDigits]
  | cons c rest ih =>
    intro acc
    rw [List.foldl_cons, ih]
    rw [List.map_cons, List.reverse_cons, Nat.ofDigits_append]
    simp [Nat.ofDigits, pow_succ]
    ring

theorem digitsToNat_natEncode (n : Nat) : digitsToNat (natEncode n) = n := by
  unfold digitsToNat natEncode
  by_cases h : n = 0
  · rw [if_pos h, h]
    decide
  · rw [if_neg h, foldl_digits_eq]
    rw [List.map_reverse, List.reverse_reverse, List.map_map]
    have hid : (Nat.digits 10 n).map ((fun c => charVal c) ∘ digitChar)
        = Nat.digits 10 n := by
      refine (List.map_congr_left fun d hd => ?_).trans (List.map_id _)
      exact charVal_digitChar d (Nat.digits_lt_base (by norm_num) hd)
    rw [hid, Nat.ofDigits_digits]
    simp

theorem takeWhile_dropWhile_append (p : Char → Bool) :
    ∀ (ds rest : List Char), (∀ c ∈ ds, p c = true)
      → (match rest with | [] => True | c :: _ => p c = false)
      → (ds ++ rest).takeWhile p = ds ∧ (ds ++ rest).dropWhile p = rest := by
  intro ds
  induction ds with
  | nil =>
    intro rest _ hrest
    cases rest with
    | nil => exact ⟨rfl, rfl⟩
    | cons c r =>
      simp only [List.nil_append]
      simp [List.takeWhile_cons, List.dropWhile_cons, hrest]
  | cons c cs ih =>
    intro rest hds hrest
    have hc := hds c (by simp)
    have hcs : ∀ c ∈ cs, p c = true := fun c hcc => hds c (by simp [hcc])
    obtain ⟨h1, h2⟩ := ih rest hcs hrest
    simp [List.takeWhile_cons, List.dropWhile_cons, hc, h1, h2]

theorem span_digits (ds rest : List Char) (hds : ∀ c ∈ ds, c.isDigit = true)
    (hsafe : numberSafe rest) :
    List.span Char.isDigit (ds ++ rest) = (ds, rest) := by
  rw [List.span_eq_take_drop]
  obtain ⟨h1, h2⟩ := takeWhile_dropWhile_append Char.isDigit ds rest hds
    (by cases rest with
      | nil => trivial
      | cons c r => exact hsafe)
  rw [h1, h2]

theorem expectChars_append (cs rest : List Char) :
    expectChars cs (cs ++ rest) = some rest := by
  induction cs with
  | nil => rfl
  | cons c cs ih => simp [expectChars, ih]

theorem parseStringBody_escape (s : List Char) :
    ∀ rest, parseStringBody (escapeChars s ++ '"' :: rest) = some (s, rest) := by
  induction s with
  | nil =>
    intro rest
    simp only [escapeChars, List.nil_append]
    unfold parseStringBody
    simp
  | cons c cs ih =>
    intro rest
    by_cases h : c = '"' ∨ c = '\\'
    · simp only [escapeChars, if_pos h, List.cons_append]
      unfold parseStringBody
      simp [h, ih rest]
    · have h1 : ¬(c = '"') := fun e => h (Or.inl e)
      have h2 : ¬(c = '\\') := fun e => h (Or.inr e)
      simp only [escapeChars, if_neg h, List.cons_append]
      unfold parseStringBody
      simp [h1, h2, ih rest]

theorem jsonWeight_pos (j : Json) : 1 ≤ jsonWeight j := by
  cases j <;> simp [jsonWeight]

theorem jsonEncode_head_safe (j : Json) :
    ∃ c cs, jsonEncode j = c :: cs ∧ c ≠ ']' ∧ c ≠ rbraceChar := by
  cases j with
  | null => exact ⟨'n', _, rfl, by decide, by decide⟩
  | bool b =>
    cases b
    · exact ⟨'f', _, rfl, by decide, by decide⟩
    · exact ⟨'t', _, rfl, by decide, by decide⟩
  | num n =>
    show ∃ c cs, intEncode n = c :: cs ∧ _
    unfold intEncode
    by_cases h : n < 0
    · rw [if_pos h]
      exact ⟨'-', _, rfl, by decide, by decide⟩
    · rw [if_neg h]
      obtain ⟨c, cs, heq⟩ := List.exists_cons_of_ne_nil (natEncode_ne_nil n.toNat)
      have hdig : c.isDigit = true :=
        natEncode_digits n.toNat c (heq ▸ List.mem_cons_self c cs)
      refine ⟨c, cs, heq, fun e => ?_, fun e => ?_⟩
      · subst e
        exact absurd hdig (by decide)
      · subst e
        exact absurd hdig (by decide)
  | str s => exact ⟨'"', _, rfl, by decide, by decide⟩
  | arr xs => exact ⟨'[', _, rfl, by decide, by decide⟩
  | obj fs => exact ⟨lbraceChar, _, rfl, by decide, by decide⟩

theorem numberSafe_nil : numberSafe [] := trivial

theorem numberSafe_cons (c : Char) (l : List Char) (h : c.isDigit = false) :
    numberSafe (c :: l) := h

mutual

theorem jsonWeight_le_length : ∀ j : Json, jsonWeight j ≤ (jsonEncode j).length
  | .null => by simp [jsonWeight, jsonEncode]
  | .bool true => by simp [jsonWeight, jsonEncode]
  | .bool false => by simp [jsonWeight, jsonEncode]
  | .num n => by
    have h2 : natEncode n.toNat ≠ [] := natEncode_ne_nil _
    have h3 : natEncode n.natAbs ≠ [] := natEncode_ne_nil _
    simp only [jsonWeight, jsonEncode, intEncode]
    by_cases h : n < 0
    · rw [if_pos h]
      simp
    · rw [if_neg h]
      have := List.length_pos.mpr h2
      omega
  | .str s => by simp [jsonWeight, jsonEncode]
  | .arr xs => by
    have h := listWeight_le_length xs
    simp only [jsonWeight, jsonEncode]
    simp
    omega
  | .obj fs => by
    have h := fieldsWeight_le_length fs
    simp only [jsonWeight, jsonEncode]
    simp
    omega

theorem listWeight_le_length :
    ∀ xs : List Json, listWeight xs ≤ (encodeElems xs).length + 1
  | [] => by simp [listWeight, encodeElems]
  | [x] => by
    have := jsonWeight_le_length x
    simp only [listWeight, encodeElems]
    omega
  | x :: y :: xs => by
    have h1 := jsonWeight_le_length x
    have h2 := listWeight_le_length (y :: xs)
    have hw : listWeight (x :: y :: xs)
        = jsonWeight x + listWeight (y :: xs) + 1 := rfl
    have he : (encodeElems (x :: y :: xs)).length
        = (jsonEncode x).length + 1 + (encodeElems (y :: xs)).length := by
      show (jsonEncode x ++ ',' :: encodeElems (y :: xs)).length = _
      simp
      omega
    omega

theorem fieldsWeight_le_length :
    ∀ fs : List (String × Json), fieldsWeight fs ≤ (encodeFields fs).length + 1
  | [] => by simp [fieldsWeight, encodeFields]
  | [(k, v)] => by
    have := jsonWeight_le_length v
    simp only [fieldsWeight, encodeFields]
    simp
    omega
  | (k, v) :: (k2, v2) :: fs => by
    have h1 := jsonWeight_le_length v
    have h2 := fieldsWeight_le_length ((k2, v2) :: fs)
    have hw : fieldsWeight ((k, v) :: (k2, v2) :: fs)
        = jsonWeight v + fieldsWeight ((k2, v2) :: fs) + 1 := rfl
    have he : (encodeFields ((k, v) :: (k2, v2) :: fs)).length
        = (escapeChars k.data).length + 3 + (jsonEncode v).length
            + 1 + (encodeFields ((k2, v2) :: fs)).length := by
      show ('"' :: (escapeChars k.data ++ '"' :: ':' :: jsonEncode v)
          ++ ',' :: encodeFields ((k2, v2) :: fs)).length = _
      simp
      omega
    omega

end

theorem parse_roundtrip : ∀ fuel : Nat,
    (∀ (j : Json) (rest : List Char), jsonWeight j ≤ fuel → numberSafe rest →
        parseVal fuel (jsonEncode j ++ rest) = some (j, rest))
      ∧ (∀ (xs : List Json) (rest : List Char), xs ≠ [] →
          listWeight xs ≤ fuel →
          parseElems fuel (encodeElems xs ++ ']' :: rest) = some (xs, rest))
      ∧ (∀ (fs : List (String × Json)) (rest : List Char), fs ≠ [] →
          fieldsWeight fs ≤ fuel →
          parseFields fuel (encodeFields fs ++ rbraceChar :: rest)
            = some (fs, rest)) := by
  intro fuel
  induction fuel with
  | zero =>
    refine ⟨fun j rest hw _ => ?_, fun xs rest hne hw => ?_,
      fun fs rest hne hw => ?_⟩
    · have := jsonWeight_pos j
      omega
    · cases xs with
      | nil => exact absurd rfl hne
      | cons x xs =>
        have := jsonWeight_pos x
        have h : listWeight (x :: xs) = jsonWeight x + listWeight xs + 1 := rfl
        omega
    · cases fs with
      | nil => exact absurd rfl hne
      | cons kv fs =>
        obtain ⟨k, v⟩ := kv
        have := jsonWeight_pos v
        have h : fieldsWeight ((k, v) :: fs)
            = jsonWeight v + fieldsWeight fs + 1 := rfl
        omega
  | succ fuel ih =>
    obtain ⟨ihV, ihE, ihF⟩ := ih
    refine ⟨?_, ?_, ?_⟩
    · intro j rest hw hsafe
      cases j with
      | null =>
        show parseVal (fuel + 1) ('n' :: 'u' :: 'l' :: 'l' :: rest) = _
        unfold parseVal
        simp [expectChars]
      | bool b =>
        cases b
        · show parseVal (fuel + 1) ('f' :: 'a' :: 'l' :: 's' :: 'e' :: rest) = _
          unfold parseVal
          simp [expectChars]
        · show parseVal (fuel + 1) ('t' :: 'r' :: 'u' :: 'e' :: rest) = _
          unfold parseVal
          simp [expectChars]
      | str s =>
        have hinput : jsonEncode (.str s) ++ rest
            = '"' :: (escapeChars s.data ++ '"' :: rest) := by
          show ('"' :: (escapeChars s.data ++ ['"'])) ++ rest = _
          simp
        rw [hinput]
        unfold parseVal
        simp [parseStringBody_escape s.data rest]
      | num n =>
        by_cases hn : n < 0
        · have henc : jsonEncode (.num n) = '-' :: natEncode n.natAbs := by
            show intEncode n = _
            simp [intEncode, hn]
          obtain ⟨c, cs, heq⟩ :=
            List.exists_cons_of_ne_nil (natEncode_ne_nil n.natAbs)
          have hspan : List.span Char.isDigit (natEncode n.natAbs ++ rest)
              = (natEncode n.natAbs, rest) :=
            span_digits _ _ (natEncode_digits _) hsafe
          have hval : -(digitsToNat (natEncode n.natAbs) : Int) = n := by
            rw [digitsToNat_natEncode]
            omega
          rw [henc]
          show parseVal (fuel + 1) ('-' :: (natEncode n.natAbs ++ rest)) = _
          unfold parseVal
          simp only [hspan]
          rw [heq]
          simp only [← heq, hval]
          simp
        · have henc : jsonEncode (.num n) = natEncode n.toNat := by
            show intEncode n = _
            simp [intEncode, hn]
          obtain ⟨c, cs, heq⟩ :=
            List.exists_cons_of_ne_nil (natEncode_ne_nil n.toNat)
          have hdig : c.isDigit = true :=
            natEncode_digits n.toNat c (heq ▸ List.mem_cons_self c cs)
          have hd1 : ¬(c = 'n') := fun e => by
            subst e; exact absurd hdig (by decide)
          have hd2 : ¬(c = 't') := fun e => by
            subst e; exact absurd hdig (by decide)
          have hd3 : ¬(c = 'f') := fun e => by
            subst e; exact absurd hdig (by decide)
          have hd4 : ¬(c = '"') := fun e => by
            subst e; exact absurd hdig (by decide)
          have hd5 : ¬(c = '-') := fun e => by
            subst e; exact absurd hdig (by decide)
          have hspan : List.span Char.isDigit (natEncode n.toNat ++ rest)
              = (natEncode n.toNat, rest) :=
            span_digits _ _ (natEncode_digits _) hsafe
          have hspan2 : List.span Char.isDigit (c :: (cs ++ rest))
              = (c :: cs, rest) := by
            have h0 : c :: (cs ++ rest) = (c :: cs) ++ rest := rfl
            rw [h0, ← heq, hspan, heq]
          have hval : (digitsToNat (natEncode n.toNat) : Int) = n := by
            rw [digitsToNat_natEncode]
            omega
          rw [henc, heq]
          show parseVal (fuel + 1) (c :: (cs ++ rest)) = _
          unfold parseVal
          simp only [hspan2, if_neg hd1, if_neg hd2, if_neg hd3, if_neg hd4,
            if_neg hd5, hdig, if_pos rfl]
          rw [← heq]
          simp only [hval]
          simp
      | arr xs =>
        cases xs with
        | nil =>
          show parseVal (fuel + 1) ('[' :: ']' :: rest) = _
          unfold parseVal
          simp
        | cons x xs' =>
          have hw' : listWeight (x :: xs') ≤ fuel := by
            have h0 : jsonWeight (.arr (x :: xs'))
                = listWeight (x :: xs') + 1 := rfl
            omega
          obtain ⟨t, ht⟩ : ∃ t, encodeElems (x :: xs') = jsonEncode x ++ t := by
            cases xs' with
            | nil => exact ⟨[], by simp [encodeElems]⟩
            | cons y ys => exact ⟨',' :: encodeElems (y :: ys), rfl⟩
          obtain ⟨c0, cs0, heq0, hc1, hc2⟩ := jsonEncode_head_safe x
          have hhead : (encodeElems (x :: xs') ++ ']' :: rest).head?
              = some c0 := by
            rw [ht, heq0]
            rfl
          have hinput : jsonEncode (.arr (x :: xs')) ++ rest
              = '[' :: (encodeElems (x :: xs') ++ ']' :: rest) := by
            show ('[' :: (encodeElems (x :: xs') ++ [']'])) ++ rest = _
            simp
          have hpe := ihE (x :: xs') rest (by simp) hw'
          rw [hinput]
          unfold parseVal
          simp [hhead, hc1, hpe]
      | obj fs =>
        cases fs with
        | nil =>
          show parseVal (fuel + 1) (lbraceChar :: rbraceChar :: rest) = _
          unfold parseVal
          simp [(by decide : ¬lbraceChar = 'n'), (by decide : ¬lbraceChar = 't'),
            (by decide : ¬lbraceChar = 'f'), (by decide : ¬lbraceChar = '"'),
            (by decide : ¬lbraceChar = '-'),
            (by decide : lbraceChar.isDigit = false),
            (by decide : ¬lbraceChar = '[')]
        | cons kv fs' =>
          obtain ⟨k, v⟩ := kv
          have hw' : fieldsWeight ((k, v) :: fs') ≤ fuel := by
            have h0 : jsonWeight (.obj ((k, v) :: fs'))
                = fieldsWeight ((k, v) :: fs') + 1 := rfl
            omega
          have hhead : (encodeFields ((k, v) :: fs') ++ rbraceChar :: rest).head?
              = some '"' := by
            cases fs' with
            | nil => rfl
            | cons kv2 fs'' => rfl
          have hinput : jsonEncode (.obj ((k, v) :: fs')) ++ rest
              = lbraceChar
                  :: (encodeFields ((k, v) :: fs') ++ rbraceChar :: rest) := by
            show (lbraceChar :: (encodeFields ((k, v) :: fs') ++ [rbraceChar]))
                ++ rest = _
            simp
          have hpf := ihF ((k, v) :: fs') rest (by simp) hw'
          rw [hinput]
          unfold parseVal
          simp [hhead, hpf, (by decide : ¬lbraceChar = 'n'),
            (by decide : ¬lbraceChar = 't'), (by decide : ¬lbraceChar = 'f'),
            (by decide : ¬lbraceChar = '"'), (by decide : ¬lbraceChar = '-'),
            (by decide : lbraceChar.isDigit = false),
            (by decide : ¬lbraceChar = '['),
            (by decide : ¬('"' = rbraceChar))]
    · intro xs rest hne hw
      cases xs with
      | nil => exact absurd rfl hne
      | cons x xs' =>
        cases xs' with
        | nil =>
          have hx : jsonWeight x ≤ fuel := by
            have h0 : listWeight [x] = jsonWeight x + 0 + 1 := rfl
            omega
          have hpv := ihV x (']' :: rest) hx (numberSafe_cons _ _ (by decide))
          show parseElems (fuel + 1) (jsonEncode x ++ ']' :: rest) = _
          unfold parseElems
          simp [hpv]
        | cons y ys =>
          have hy := jsonWeight_pos x
          have h0 : listWeight (x :: y :: ys)
              = jsonWeight x + listWeight (y :: ys) + 1 := rfl
          have hx : jsonWeight x ≤ fuel := by omega
          have hrest' : listWeight (y :: ys) ≤ fuel := by
            have := jsonWeight_pos y
            have h1 : listWeight (y :: ys)
                = jsonWeight y + listWeight ys + 1 := rfl
            omega
          have hpv := ihV x (',' :: (encodeElems (y :: ys) ++ ']' :: rest)) hx
            (numberSafe_cons _ _ (by decide))
          have hpe := ihE (y :: ys) rest (by simp) hrest'
          have hinput : encodeElems (x :: y :: ys) ++ ']' :: rest
              = jsonEncode x ++ ',' :: (encodeElems (y :: ys) ++ ']' :: rest) := by
            show (jsonEncode x ++ ',' :: encodeElems (y :: ys)) ++ ']' :: rest = _
            simp
          rw [hinput]
          unfold parseElems
          simp [hpv, hpe]
    · intro fs rest hne hw
      cases fs with
      | nil => exact absurd rfl hne
      | cons kv fs' =>
        obtain ⟨k, v⟩ := kv
        cases fs' with
        | nil =>
          have hv : jsonWeight v ≤ fuel := by
            have h0 : fieldsWeight [(k, v)] = jsonWeight v + 0 + 1 := rfl
            omega
          have hpv := ihV v (rbraceChar :: rest) hv
            (numberSafe_cons _ _ (by decide))
          have hinput : encodeFields [(k, v)] ++ rbraceChar :: rest
              = '"' :: (escapeChars k.data
                  ++ '"' :: ':' :: (jsonEncode v ++ rbraceChar :: rest)) := by
            show ('"' :: (escapeChars k.data ++ '"' :: ':' :: jsonEncode v))
                ++ rbraceChar :: rest = _
            simp
          rw [hinput]
          unfold parseFields
          simp [parseStringBody_escape, hpv]
          rfl
        | cons kv2 fs'' =>
          obtain ⟨k2, v2⟩ := kv2
          have h0 : fieldsWeight ((k, v) :: (k2, v2) :: fs'')
              = jsonWeight v + fieldsWeight ((k2, v2) :: fs'') + 1 := rfl
          have hv : jsonWeight v ≤ fuel := by
            have := jsonWeight_pos v2
            have h1 : fieldsWeight ((k2, v2) :: fs'')
                = jsonWeight v2 + fieldsWeight fs'' + 1 := rfl
            omega
          have hrest' : fieldsWeight ((k2, v2) :: fs'') ≤ fuel := by
            have := jsonWeight_pos v
            omega
          have hpv := ihV v
            (',' :: (encodeFields ((k2, v2) :: fs'') ++ rbraceChar :: rest)) hv
            (numberSafe_cons _ _ (by decide))
          have hpf := ihF ((k2, v2) :: fs'') rest (by simp) hrest'
          have hinput : encodeFields ((k, v) :: (k2, v2) :: fs'')
                ++ rbraceChar :: rest
              = '"' :: (escapeChars k.data ++ '"' :: ':'
                  :: (jsonEncode v ++ ','
                    :: (encodeFields ((k2, v2) :: fs'')
                      ++ rbraceChar :: rest))) := by
            show ('"' :: (escapeChars k.data ++ '"' :: ':' :: jsonEncode v)
                ++ ',' :: encodeFields ((k2, v2) :: fs''))
                ++ rbraceChar :: rest = _
            simp
          rw [hinput]
          unfold parseFields
          simp [parseStringBody_escape, hpv, hpf]

theorem jsonEncode_ne_nil (j : Json) : jsonEncode j ≠ [] := by
  obtain ⟨c, cs, heq, _, _⟩ := jsonEncode_head_safe j
  simp [heq]

theorem jsonUnmarshal_encode (j : Json) :
    jsonUnmarshal (jsonEncode j) = some j := by
  unfold jsonUnmarshal
  have hw : jsonWeight j ≤ (jsonEncode j).length + 1 := by
    have := jsonWeight_le_length j
    omega
  have hp := (parse_roundtrip ((jsonEncode j).length + 1)).1 j [] hw
    numberSafe_nil
  rw [List.append_nil] at hp
  rw [hp]

theorem jsonDeserialize_encode (j : Json) :
    jsonDeserialize (jsonEncode j) = .ok (.goJson j) := by
  unfold jsonDeserialize
  rw [if_neg (by simp [List.length_eq_zero, jsonEncode_ne_nil j]),
    jsonUnmarshal_encode]

/-! ## The serialized round trip (C5), Deserialize edge cases (C9), and the
unreachable unsupported-type branch (C10) -/

/-- The domain of values the active serializer accepts: any Go string for the
raw-string serializer; a canonically-represented JSON value (the image of Go's
`map`/slice/scalar data) for the JSON serializer. -/
def accepted : SerializerKind → GoValue → Prop
  | .string, v => ∃ str, v = .goJson (.str str)
  | .json, v => ∃ j, v = .goJson j ∧ canonicalJson j = true

/-- Well-formedness of a backend state: trivial for memory, the reachable
bucket invariant for disk. -/
def backendWF : Backend → Prop
  | .mem _ => True
  | .disk d => bucketInv d

theorem disk_set_get_bytes (d : DiskStore) (hinv : bucketInv d) (k : String)
    (bts : Bytes) :
    (d.Set k (.goBytes bts)).2 = none
      ∧ ((d.Set k (.goBytes bts)).1.Get k).2 = .ok (.goBytes bts) := by
  obtain ⟨hopd, hb, hf⟩ := openDB_ready d hinv
  obtain ⟨bkt, hfl, htb⟩ := txBucket_openDB d hinv
  have hinv' : bucketInv (d.Set k (.goBytes bts)).1 :=
    bucketInv_applyOp d (.set k (.goBytes bts)) hinv
  have hdv : diskVal (d.Set k (.goBytes bts)).1 k = some bts := by
    rw [diskVal_set d hinv k k bts, if_pos rfl]
  constructor
  · rw [set_eq]
    simp only [goValueToBytes, hb, hfl]
  · rw [disk_get_val _ hinv' k, hdv]

theorem serializedGet_mem (m : MemoryStore) (S : SerializerKind) (k : String) :
    ((SerializedStore.mk (.mem m) S).Get k).2
      = (match m.Get k with
        | .error e => .error e
        | .ok (.goJson (.str str)) => deserialize S str.data
        | .ok (.goBytes bts) => deserialize S bts
        | .ok other => .ok other) := by
  unfold SerializedStore.Get
  rw [show Backend.Get (.mem m) k = (.mem m, m.Get k) from rfl]
  rcases hg : m.Get k with e | raw
  · rfl
  · rcases raw with b | j | ⟨tn, tr⟩
    · rfl
    · rcases j <;> rfl
    · rfl

theorem serializedGet_disk (d : DiskStore) (S : SerializerKind) (k : String) :
    ((SerializedStore.mk (.disk d) S).Get k).2
      = (match (d.Get k).2 with
        | .error e => .error e
        | .ok (.goJson (.str str)) => deserialize S str.data
        | .ok (.goBytes bts) => deserialize S bts
        | .ok other => .ok other) := by
  unfold SerializedStore.Get
  rcases hg : d.Get k with ⟨d', r⟩
  have hbg : Backend.Get (.disk d) k = (.disk d', r) := by
    show (match d.Get k with
      | (d'', r') => ((Backend.disk d'' : Backend), r')) = _
    rw [hg]
  rw [hbg]
  rcases r with e | raw
  · rfl
  · rcases raw with b | j | ⟨tn, tr⟩
    · rfl
    · rcases j <;> rfl
    · rfl

/-- C5: for every backend state (memory, or disk satisfying the reachable
bucket invariant), active serializer and value accepted by it,
`SerializedStore.Set k v` succeeds and a subsequent `SerializedStore.Get k`
returns a value equal to `v`: the stored bytes round-trip through the active
serializer's `Serialize` and `Deserialize`. -/
theorem serialized_set_get_roundtrip (b : Backend) (S : SerializerKind)
    (k : String) (v : GoValue) (hacc : accepted S v) (hwf : backendWF b) :
    ((SerializedStore.mk b S).Set k v).2 = none
      ∧ (((SerializedStore.mk b S).Set k v).1.Get k).2 = .ok v := by
  obtain ⟨bts, hser, hdeser⟩ : ∃ bts, serialize S v = .ok bts
      ∧ deserialize S bts = .ok v := by
    cases S with
    | json =>
      obtain ⟨j, rfl, hcan⟩ := hacc
      exact ⟨jsonEncode j, rfl, jsonDeserialize_encode j⟩
    | string =>
      obtain ⟨str, rfl⟩ := hacc
      exact ⟨str.data, rfl, rfl⟩
  cases b with
  | mem m =>
    have hset : (SerializedStore.mk (.mem m) S).Set k v
        = (⟨.mem ⟨assocSet m.container k bts⟩, S⟩, none) := by
      unfold SerializedStore.Set
      rw [hser]
      rfl
    rw [hset]
    refine ⟨rfl, ?_⟩
    rw [serializedGet_mem]
    have hmg : MemoryStore.Get ⟨assocSet m.container k bts⟩ k
        = .ok (.goBytes bts) := by
      unfold MemoryStore.Get
      rw [lookup_assocSet_self]
    rw [hmg]
    exact hdeser
  | disk d =>
    obtain ⟨hsnd, hget⟩ := disk_set_get_bytes d hwf k bts
    rcases hds : d.Set k (.goBytes bts) with ⟨d', e⟩
    have he : e = none := by
      rw [hds] at hsnd
      exact hsnd
    subst he
    have hget' : (d'.Get k).2 = .ok (.goBytes bts) := by
      rw [hds] at hget
      exact hget
    have hset : (SerializedStore.mk (.disk d) S).Set k v
        = (⟨.disk d', S⟩, none) := by
      unfold SerializedStore.Set Backend.Set
      rw [hser]
      show (match d.Set k (.goBytes bts) with
        | (d'', e) => ((⟨.disk d'', S⟩ : SerializedStore), e)) = _
      rw [hds]
    rw [hset]
    refine ⟨rfl, ?_⟩
    rw [serializedGet_disk, hget']
    exact hdeser

/-- Witness for C5: a concrete structured value round-trips under the JSON
serializer, and a concrete string under the raw-string serializer, over the
memory backend. -/
theorem serialized_set_get_roundtrip_witness :
    ((SerializedStore.mk (.mem NewMemoryStore) .json).Set "k"
        (.goJson (.arr [.num 12, .str "a", .obj [("x", .null)]]))).2 = none
      ∧ (((SerializedStore.mk (.mem NewMemoryStore) .json).Set "k"
          (.goJson (.arr [.num 12, .str "a", .obj [("x", .null)]]))).1.Get
            "k").2
          = .ok (.goJson (.arr [.num 12, .str "a", .obj [("x", .null)]]))
      ∧ ((SerializedStore.mk (.mem NewMemoryStore) .string).Set "k"
          (.goJson (.str "hello"))).2 = none
      ∧ (((SerializedStore.mk (.mem NewMemoryStore) .string).Set "k"
          (.goJson (.str "hello"))).1.Get "k").2
          = .ok (.goJson (.str "hello")) :=
  ⟨(serialized_set_get_roundtrip (.mem NewMemoryStore) .json "k" _
      ⟨_, rfl, by simp [canonicalJson, canonicalList, canonicalFields]⟩
      trivial).1,
    (serialized_set_get_roundtrip (.mem NewMemoryStore) .json "k" _
      ⟨_, rfl, by simp [canonicalJson, canonicalList, canonicalFields]⟩
      trivial).2,
    (serialized_set_get_roundtrip (.mem NewMemoryStore) .string "k" _
      ⟨"hello", rfl⟩ trivial).1,
    (serialized_set_get_roundtrip (.mem NewMemoryStore) .string "k" _
      ⟨"hello", rfl⟩ trivial).2⟩

/-- C9: `JSONSerializer.Deserialize` of a zero-length byte sequence yields
the absent value (`nil`) with no error, and of non-empty bytes on which
unmarshalling fails (malformed JSON) it returns a decode error. -/
theorem json_deserialize_empty_malformed :
    jsonDeserialize [] = .ok (.goJson .null)
      ∧ ∀ data : Bytes, data ≠ [] → jsonUnmarshal data = none →
          jsonDeserialize data = .error .deserializationFailure := by
  refine ⟨rfl, fun data hne hbad => ?_⟩
  unfold jsonDeserialize
  rw [if_neg (by simp [List.length_eq_zero, hne]), hbad]

/-- Witness for C9: the concrete malformed input `"x"` is rejected with the
decode error. -/
theorem json_deserialize_empty_malformed_witness :
    jsonDeserialize "x".data = .error .deserializationFailure :=
  json_deserialize_empty_malformed.2 "x".data (by decide)
    (by unfold jsonUnmarshal parseVal
        simp [(by decide : ¬('x' = lbraceChar))])

theorem disk_set_bytes_not_unsupported (d : DiskStore) (k : String)
    (bts : Bytes) (t : String) :
    (d.Set k (.goBytes bts)).2 ≠ some (.unsupportedValueType t) := by
  rw [set_eq]
  simp only [goValueToBytes]
  rcases hbk : (d.openDB).1.bucket with _ | name
  · simp [hbk]
  · rcases hfl : ((d.openDB).1.file).lookup name with _ | bkt <;>
      simp [hbk, hfl]

/-- C10: `SerializedStore.Set` never surfaces the backend's "unsupported
value type" error: `StringSerializer.Serialize` never fails at all; when
serialization fails the backend is never touched (the store is returned
unchanged with a serialization error); and when it succeeds the backend
receives a byte slice, so its unsupported-type branch cannot be taken. -/
theorem serialized_set_never_unsupported (s : SerializedStore) (k : String)
    (v : GoValue) :
    (∃ bts, stringSerialize v = .ok bts)
      ∧ (∀ e, serialize s.serializer v = .error e →
          (s.Set k v).1 = s ∧ (s.Set k v).2 = some .serializationFailure)
      ∧ ∀ t, (s.Set k v).2 ≠ some (.unsupportedValueType t) := by
  refine ⟨?_, ?_, ?_⟩
  · cases v with
    | goBytes b => exact ⟨_, rfl⟩
    | goJson j => cases j <;> exact ⟨_, rfl⟩
    | goOther t r => exact ⟨_, rfl⟩
  · intro e he
    unfold SerializedStore.Set
    rw [he]
    exact ⟨rfl, rfl⟩
  · intro t
    rcases hser : serialize s.serializer v with e | bts
    · unfold SerializedStore.Set
      rw [hser]
      simp
    · rcases hstore : s.store with m | d
      · unfold SerializedStore.Set Backend.Set MemoryStore.Set
        rw [hser, hstore]
        simp only [goValueToBytes]
        simp
      · unfold SerializedStore.Set Backend.Set
        rw [hser, hstore]
        have := disk_set_bytes_not_unsupported d k bts t
        simpa using this

/-- Witness for C10: a concrete unmarshalable value (a Go channel) makes the
JSON serializer fail, and the store is returned unchanged; a concrete byte
value is stored with no error. -/
theorem serialized_set_never_unsupported_witness :
    ((SerializedStore.mk (.mem NewMemoryStore) .json).Set "k"
        (.goOther "chan int" "0xc000012345")).1
        = SerializedStore.mk (.mem NewMemoryStore) .json
      ∧ ((SerializedStore.mk (.mem NewMemoryStore) .json).Set "k"
          (.goOther "chan int" "0xc000012345")).2
          = some .serializationFailure
      ∧ ∀ t, ((SerializedStore.mk (.mem NewMemoryStore) .json).Set "k"
          (.goJson (.str "v"))).2 ≠ some (.unsupportedValueType t) :=
  ⟨((serialized_set_never_unsupported
        (SerializedStore.mk (.mem NewMemoryStore) .json) "k"
        (.goOther "chan int" "0xc000012345")).2.1 .serializationFailure
      rfl).1,
    ((serialized_set_never_unsupported
        (SerializedStore.mk (.mem NewMemoryStore) .json) "k"
        (.goOther "chan int" "0xc000012345")).2.1 .serializationFailure
      rfl).2,
    (serialized_set_never_unsupported
        (SerializedStore.mk (.mem NewMemoryStore) .json) "k"
        (.goJson (.str "v"))).2.2⟩

end KV

